import Mathlib

/-!
# USB audio bridge (`usb-audio/main/main.c`): embedding and properties

The streaming callbacks of `main.c` are embedded as pure functions over an explicit
device state.

* Buffers are lists of bytes; 16-bit samples are read and written little-endian, as on
  the ESP32 targets.
* `size_t` is 32 bits wide; the running byte count of the write loop wraps modulo `2 ^ 32`.
* A finite binary32 value is the rational it denotes.  `roundF32` is IEEE-754
  round-to-nearest-even onto the binary32 grid (24-bit significand, gradual underflow);
  every float operation of the source is the exact operation followed by `roundF32`.
* The driver primitives `i2s_channel_write` / `i2s_channel_read` and libm's `powf` are
  outside the repository and enter as parameters.
-/

namespace UsbUac

/-! ## Status codes and device state -/

/-- The type `esp_err_t`. -/
abbrev esp_err_t := Int

/-- The code `ESP_OK`. -/
def ESP_OK : esp_err_t := 0

/-- The code `ESP_FAIL`. -/
def ESP_FAIL : esp_err_t := -1

/-- Number of values of a `size_t` / `uint32_t`. -/
def SIZE_MOD : Nat := 2 ^ 32

/-- A binary32 value: a finite number (the rational it denotes) or an infinity / NaN. -/
inductive F32 where
  | fin (q : ℚ)
  | nonfin
  deriving DecidableEq

/-- The file-scope variables of `main.c` read by the callbacks: whether the handles
`tx` and `rx` are non-null, `is_muted` and `volume_factor`. -/
structure Dev where
  tx : Bool
  rx : Bool
  is_muted : Bool
  volume_factor : F32
  deriving DecidableEq

/-! ## Binary32 arithmetic -/

/-- Nearest integer, ties to even. -/
def roundHalfEven (q : ℚ) : ℤ :=
  let f := ⌊q⌋
  let r := q - f
  if r < 1 / 2 then f
  else if 1 / 2 < r then f + 1
  else if f % 2 = 0 then f else f + 1

/-- Exponent `e` of the binade of `q` (`2 ^ e ≤ |q| < 2 ^ (e + 1)`), not below the
exponent `-126` of the smallest normal binary32 number (which is also used for zero). -/
def binade (q : ℚ) : ℤ := if q = 0 then -126 else max (Int.log 2 |q|) (-126)

/-- Rounding of a rational to binary32, round-to-nearest-even: the grid spacing in the
binade of `q` is `2 ^ (binade q - 23)`.  The exponent is not bounded above. -/
def roundF32 (q : ℚ) : ℚ :=
  let ulp : ℚ := 2 ^ (binade q - 23)
  roundHalfEven (q / ulp) * ulp

/-- Truncation toward zero. -/
def truncZ (x : ℚ) : ℤ := if 0 ≤ x then ⌊x⌋ else ⌈x⌉

/-- Conversion `(int32_t)x` of a float: truncation toward zero, undefined (`none`) when
the truncated value is not an `int32_t`. -/
def castI32 (x : ℚ) : Option ℤ :=
  let t : ℤ := truncZ x
  if -2147483648 ≤ t ∧ t ≤ 2147483647 then some t else none

/-- Conversion `(int16_t)v` of an `int32_t`: the low 16 bits, two's complement. -/
def castI16 (v : ℤ) : ℤ := (v + 32768) % 65536 - 32768

/-! ## Sample access -/

/-- Read `samples[i]` (`int16_t`, little-endian) from the byte buffer. -/
def readSample (buf : List Nat) (i : Nat) : ℤ :=
  castI16 ((buf.getD (2 * i) 0 : Nat) + 256 * (buf.getD (2 * i + 1) 0 : Nat))

/-- Store the `int16_t` value `v` to `samples[i]`. -/
def writeSample (buf : List Nat) (i : Nat) (v : ℤ) : List Nat :=
  let u : Nat := (v % 65536).toNat
  (buf.set (2 * i) (u % 256)).set (2 * i + 1) (u / 256)

/-- Lines 50-58 for one sample: widen, scale by `volume_factor` in binary32, convert back
to `int32_t`, clamp to the `int16_t` range.  `none` when the conversion is undefined. -/
def scaleSample (vf : F32) (s : ℤ) : Option ℤ :=
  match vf with
  | F32.nonfin => none
  | F32.fin f =>
    match castI32 (roundF32 ((s : ℚ) * f)) with
    | none => none
    | some sample =>
      if sample > 32767 then some 32767
      else if sample < -32768 then some (-32768)
      else some sample

/-- Body of the sample loop (lines 46-59) for index `i`. -/
def processSample (st : Dev) (buf : List Nat) (i : Nat) : Option (List Nat) :=
  if st.is_muted then some (writeSample buf i 0)
  else
    match scaleSample st.volume_factor (readSample buf i) with
    | none => none
    | some sample => some (writeSample buf i (castI16 sample))

/-- The sample loop (lines 45-60) with `k` iterations left, starting at index `i`. -/
def processLoop (st : Dev) : Nat → Nat → List Nat → Option (List Nat)
  | 0, _, buf => some buf
  | k + 1, i, buf =>
    match processSample st buf i with
    | none => none
    | some buf1 => processLoop st k (i + 1) buf1

/-! ## Output transport -/

/-- One call of `i2s_channel_write`: the offset of the source pointer into `buf`, the
requested size, the bytes at the source pointer, and what the driver answered (status
and `bytes_written`). -/
structure WriteCall where
  offset : Nat
  size : Nat
  data : List Nat
  status : esp_err_t
  written : Nat
  deriving DecidableEq

/-- The driver primitive `i2s_channel_write`, over a driver state `σ`: from the bytes at
the source pointer and the requested size it gives the new driver state, the status and
the value left in `bytes_written`. -/
abbrev I2sWrite (σ : Type) := σ → List Nat → Nat → σ × esp_err_t × Nat

/-- State of the write loop. -/
structure WriteLoop (σ : Type) where
  exited : Bool
  hw : σ
  total_bytes_written : Nat
  calls : List WriteCall

/-- The write loop (lines 62-66), run for at most `fuel` iterations.  The status of
`i2s_channel_write` is discarded, as in the source. -/
def writeLoop {σ : Type} (write : I2sWrite σ) (buf : List Nat) (len : Nat) :
    Nat → σ → Nat → List WriteCall → WriteLoop σ
  | 0, hw, total, calls => ⟨decide (¬ total < len), hw, total, calls⟩
  | fuel + 1, hw, total, calls =>
    if total < len then
      let src := (buf.drop total).take (len - total)
      let r := write hw src (len - total)
      writeLoop write buf len fuel r.1 ((total + r.2.2) % SIZE_MOD)
        (calls ++ [⟨total, len - total, src, r.2.1, r.2.2⟩])
    else ⟨true, hw, total, calls⟩

/-- Outcome of `usb_uac_device_output_cb`: the returned status (`none` while the write
loop has not exited), the buffer, the driver calls made and the driver state. -/
structure OutputResult (σ : Type) where
  ret : Option esp_err_t
  buf : List Nat
  calls : List WriteCall
  hw : σ

/-- The callback `usb_uac_device_output_cb(buf, len, arg)`.  `none` when a float-to-integer
conversion in the sample loop is undefined. -/
def usb_uac_device_output_cb {σ : Type} (write : I2sWrite σ) (fuel : Nat) (st : Dev)
    (hw : σ) (buf : List Nat) (len : Nat) : Option (OutputResult σ) :=
  if ¬ st.tx then some ⟨some ESP_FAIL, buf, [], hw⟩
  else
    match processLoop st (len / 2) 0 buf with
    | none => none
    | some buf1 =>
      let w := writeLoop write buf1 len fuel hw 0 []
      some ⟨if w.exited then some ESP_OK else none, buf1, w.calls, w.hw⟩

/-! ## Input transport -/

/-- The driver primitive `i2s_channel_read`: from the requested size it gives the new
driver state, the status, the bytes stored to the buffer and `*bytes_read`. -/
abbrev I2sRead (σ : Type) := σ → Nat → σ × esp_err_t × List Nat × Nat

/-- Outcome of `usb_uac_device_input_cb`: status, buffer, `*bytes_read` when stored, the
sizes of the driver calls made, and the driver state. -/
structure InputResult (σ : Type) where
  ret : esp_err_t
  buf : List Nat
  bytes_read : Option Nat
  calls : List Nat
  hw : σ

/-- The callback `usb_uac_device_input_cb(buf, len, bytes_read, arg)`. -/
def usb_uac_device_input_cb {σ : Type} (read : I2sRead σ) (st : Dev) (hw : σ)
    (buf : List Nat) (len : Nat) : InputResult σ :=
  if ¬ st.rx then ⟨ESP_FAIL, buf, none, [], hw⟩
  else
    let r := read hw len
    ⟨r.2.1, r.2.2.1 ++ buf.drop r.2.2.1.length, some r.2.2.2, [len], r.1⟩

/-! ## Gain control -/

/-- The callback `usb_uac_device_set_mute_cb(mute, arg)`. -/
def usb_uac_device_set_mute_cb (st : Dev) (mute : Nat) : Dev :=
  { st with is_muted := decide (mute ≠ 0) }

/-- Binary32 addition of finite values. -/
def f32add (a b : ℚ) : ℚ := roundF32 (a + b)

/-- Binary32 subtraction of finite values. -/
def f32sub (a b : ℚ) : ℚ := roundF32 (a - b)

/-- Binary32 multiplication of finite values. -/
def f32mul (a b : ℚ) : ℚ := roundF32 (a * b)

/-- Binary32 division of finite values. -/
def f32div (a b : ℚ) : ℚ := roundF32 (a / b)

/-- The value `db` of line 92 for a non-zero `_volume`: `_volume - 1` in `uint32_t`,
converted to binary32, times `0.0f - (-40.0f)`, over `99.0f`, added to `-40.0f`. -/
def volume_db (_volume : Nat) : ℚ :=
  f32add (-40) (f32div (f32mul (roundF32 (((_volume - 1) % SIZE_MOD : Nat) : ℚ)) (f32sub 0 (-40))) 99)

/-- The callback `usb_uac_device_set_volume_cb(_volume, arg)`; `powf` is libm's. -/
def usb_uac_device_set_volume_cb (powf : ℚ → ℚ → F32) (st : Dev) (_volume : Nat) : Dev :=
  if _volume = 0 then { st with volume_factor := F32.fin (roundF32 (1 / 1000)) }
  else { st with volume_factor := powf 10 (f32div (volume_db _volume) 20) }

/-! ## String descriptors -/

/-- The table `string_desc_arr`; entry 0 is the two bytes of the language id. -/
def string_desc_arr : List (List Nat) :=
  [[0x09, 0x04],
   "Espressif".toList.map Char.toNat,
   "ESP32 UAC Speaker".toList.map Char.toNat,
   "123456".toList.map Char.toNat,
   "UAC Speaker Control".toList.map Char.toNat,
   "UAC Speaker Streaming".toList.map Char.toNat]

/-- Store the characters `str[0 .. n-1]` to `_desc_str[1 ..]` (lines 189-192). -/
def copyChars (str : List Nat) : Nat → Nat → List Nat → List Nat
  | 0, _, d => d
  | n + 1, i, d => copyChars str n (i + 1) (d.set (1 + i) (str.getD i 0 % 65536))

/-- The callback `tud_descriptor_string_cb(index, langid)` over the contents `d` of the
static `_desc_str`; `descString` is the constant `TUSB_DESC_STRING` of the USB stack.
Gives the new contents of `_desc_str`, or `none` for a `NULL` return. -/
def tud_descriptor_string_cb (descString : Nat) (d : List Nat) (index : Nat) :
    Option (List Nat) :=
  if index = 0 then
    let s0 := string_desc_arr.getD 0 []
    let d1 := d.set 1 (s0.getD 0 0 + 256 * s0.getD 1 0)
    let chr_count := 2
    some (d1.set 0 (((descString <<< 8) ||| (2 * chr_count + 2)) % 65536))
  else if ¬ index < string_desc_arr.length then none
  else
    let str := string_desc_arr.getD index []
    let chr_count := str.length % 256
    let chr_count := if chr_count > 31 then 31 else chr_count
    let d1 := copyChars str chr_count 0 d
    some (d1.set 0 (((descString <<< 8) ||| (2 * chr_count + 2)) % 65536))

/-! ## Auxiliary definitions for the statements -/

/-- What the loop passes to a call and what the driver accepts: offset, size, bytes and
`bytes_written`. -/
def WriteCall.view (c : WriteCall) : Nat × Nat × List Nat × Nat :=
  (c.offset, c.size, c.data, c.written)

/-- The call expected as number `i` when every call accepts `min K size` bytes. -/
def chunkView (buf : List Nat) (len K : Nat) (i : Nat) : Nat × Nat × List Nat × Nat :=
  (i * K, len - i * K, (buf.drop (i * K)).take (len - i * K), min K (len - i * K))

/-- Number of calls needed for `len` bytes at `K` bytes per call, `⌈len / K⌉`. -/
def chunkCount (len K : Nat) : Nat := (len + K - 1) / K

/-- A driver that accepts up to 40 bytes per call. -/
def accept40 : I2sWrite Unit := fun _ _ n => ((), ESP_OK, min 40 n)

/-- A driver that reports an error and accepts nothing on its first call, and accepts
everything from the second call on; its state counts the calls. -/
def failOnce : I2sWrite Nat := fun n _ size =>
  if n = 0 then (1, ESP_FAIL, 0) else (n + 1, ESP_OK, size)

/-- A driver that reports an error and accepts nothing on every call. -/
def failAlways : I2sWrite Unit := fun _ _ _ => ((), ESP_FAIL, 0)

/-- A reader that fills the request with the byte 1. -/
def readOnes : I2sRead Unit := fun _ n => ((), ESP_OK, List.replicate n 1, n)

/-- The value stored back for a sample that reads `s`. -/
def sampleOut (st : Dev) (s : ℤ) : Option ℤ :=
  if st.is_muted then some 0 else (scaleSample st.volume_factor s).map castI16

/-- The exact decibel value of the volume curve, `-40 + (level - 1) * 40 / 99`. -/
def dbExact (level : Nat) : ℚ := -40 + ((level : ℚ) - 1) * 40 / 99

/-- Accuracy assumed of libm's `powf` at base 10: `powf(10, 0)` is exactly 1, and for an
exponent of magnitude at most 37 the result is finite and within relative error
`2 ^ (-22)` (two units in the last place) of the real power. -/
def PowfAccurate (powf : ℚ → ℚ → F32) : Prop :=
  powf 10 0 = F32.fin 1 ∧
  ∀ y : ℚ, |y| ≤ 37 → ∃ r : ℚ, powf 10 y = F32.fin r ∧
    |(r : ℝ) - (10 : ℝ) ^ (y : ℝ)| ≤ (10 : ℝ) ^ (y : ℝ) / 2 ^ 22

/-- A reference `powf` meeting `PowfAccurate`: some rational within the stated error of
the real power. -/
noncomputable def refPowf (x y : ℚ) : F32 :=
  if y = 0 then F32.fin 1
  else F32.fin (Classical.epsilon
    (fun r : ℚ => |(r : ℝ) - (x : ℝ) ^ (y : ℝ)| ≤ (x : ℝ) ^ (y : ℝ) / 2 ^ 22))

/-! ## The write loop against a driver that accepts at most `K` bytes per call -/



theorem lt_chunkCount (len : Nat) {K : Nat} (hK : 1 ≤ K) (j : Nat) :
    j < chunkCount len K ↔ j * K < len := by
  unfold chunkCount
  rw [Nat.lt_iff_add_one_le, Nat.le_div_iff_mul_le (by omega), Nat.add_mul]
  omega

theorem chunkCount_ceil {len K : Nat} (hK : 1 ≤ K) (hlen : 0 < len) :
    (chunkCount len K - 1) * K < len ∧ len ≤ chunkCount len K * K := by
  have h1 := lt_chunkCount len hK (chunkCount len K - 1)
  have h2 := lt_chunkCount len hK (chunkCount len K)
  have h0 : 0 < chunkCount len K := (lt_chunkCount len hK 0).mpr (by simpa using hlen)
  refine ⟨h1.mp (by omega), ?_⟩
  by_contra hc
  have := h2.mpr (by omega)
  omega

theorem writeLoop_chunks {σ : Type} (write : I2sWrite σ) (buf : List Nat) (len K : Nat)
    (hK : 1 ≤ K) (hlen : len < SIZE_MOD)
    (hw : ∀ s src n, (write s src n).2.2 = min K n) :
    ∀ (fuel j : Nat) (s : σ) (calls : List WriteCall),
      (writeLoop write buf len fuel s (min (j * K) len) calls).calls.map WriteCall.view
          = calls.map WriteCall.view
            ++ (List.range' j (min fuel (chunkCount len K - j))).map (chunkView buf len K)
        ∧ (writeLoop write buf len fuel s (min (j * K) len) calls).exited
          = decide (chunkCount len K ≤ j + fuel) := by
  intro fuel
  induction fuel with
  | zero =>
    intro j s calls
    have h := lt_chunkCount len hK j
    simp only [writeLoop, Nat.zero_min, List.range'_zero, List.map_nil, List.append_nil,
      Nat.add_zero, true_and]
    by_cases hj : j * K < len
    · have : ¬ chunkCount len K ≤ j := by have := h.mpr hj; omega
      simp [this, Nat.min_eq_left (Nat.le_of_lt hj), hj]
    · have : chunkCount len K ≤ j := by
        by_contra hc; exact hj (h.mp (by omega))
      simp [this, Nat.min_eq_right (Nat.le_of_not_lt hj)]
  | succ fuel ih =>
    intro j s calls
    have h := lt_chunkCount len hK j
    by_cases hj : j * K < len
    · have hjn : j < chunkCount len K := h.mpr hj
      have hmin : min (j * K) len = j * K := Nat.min_eq_left (Nat.le_of_lt hj)
      have hnext : (j * K + min K (len - j * K)) % SIZE_MOD = min ((j + 1) * K) len := by
        have : j * K + min K (len - j * K) = min ((j + 1) * K) len := by
          rw [Nat.add_mul]; omega
        rw [this]
        exact Nat.mod_eq_of_lt (lt_of_le_of_lt (Nat.min_le_right _ _) hlen)
      simp only [writeLoop, hmin, hj, if_true, hw, hnext]
      have ih1 := ih (j + 1) (write s ((buf.drop (j * K)).take (len - j * K)) (len - j * K)).1
        (calls ++ [⟨j * K, len - j * K, (buf.drop (j * K)).take (len - j * K),
          (write s ((buf.drop (j * K)).take (len - j * K)) (len - j * K)).2.1,
          min K (len - j * K)⟩])
      refine ⟨?_, ?_⟩
      · rw [ih1.1]
        have : min (fuel + 1) (chunkCount len K - j)
            = (min fuel (chunkCount len K - (j + 1))) + 1 := by omega
        rw [this, List.range'_succ]
        simp [chunkView, WriteCall.view]
      · rw [ih1.2]
        have : (chunkCount len K ≤ j + 1 + fuel) ↔ (chunkCount len K ≤ j + (fuel + 1)) := by
          omega
        simp [this]
    · have hjn : chunkCount len K ≤ j := by
        by_contra hc; exact hj (h.mp (by omega))
      have hmin : min (j * K) len = len := Nat.min_eq_right (Nat.le_of_not_lt hj)
      have h0 : chunkCount len K - j = 0 := by omega
      have h1 : chunkCount len K ≤ j + (fuel + 1) := by omega
      simp [writeLoop, hmin, h0, h1]

theorem chunk_written_sum (buf : List Nat) (len K : Nat) (hK : 1 ≤ K) :
    ∀ m, m ≤ chunkCount len K →
      (((List.range m).map (chunkView buf len K)).map (fun v => v.2.2.2)).sum
        = min (m * K) len := by
  intro m
  induction m with
  | zero => intro _; simp
  | succ m ih =>
    intro hm
    have hlt : m * K < len := (lt_chunkCount len hK m).mp (by omega)
    rw [List.range_succ, List.map_append, List.map_append, List.sum_append, ih (by omega)]
    simp only [List.map_cons, List.map_nil, List.sum_cons, List.sum_nil, chunkView, Nat.add_zero]
    rw [Nat.add_mul]; omega

/-- C1. With the output handle present and a driver that accepts `min K size` bytes on every
call (`K ≥ 1`), `usb_uac_device_output_cb` on `len > 0` bytes returns `ESP_OK` exactly when
the loop has been given `⌈len / K⌉` iterations; it then has issued exactly `⌈len / K⌉`
calls, call `i` being passed the slice at offset `i * K` (the bytes accepted so far) of
size `len - i * K` (the bytes remaining), and the accepted bytes sum to `len`. -/
theorem output_cb_chunked_write {σ : Type} (write : I2sWrite σ) (st : Dev) (hw0 : σ)
    (buf buf1 : List Nat) (len K : Nat) (hK : 1 ≤ K) (hpos : 0 < len) (hlen : len < SIZE_MOD)
    (htx : st.tx = true) (hproc : processLoop st (len / 2) 0 buf = some buf1)
    (hacc : ∀ s src n, (write s src n).2.2 = min K n) (fuel : Nat) :
    ((chunkCount len K - 1) * K < len ∧ len ≤ chunkCount len K * K) ∧
    ∃ r, usb_uac_device_output_cb write fuel st hw0 buf len = some r ∧
      r.buf = buf1 ∧
      (r.ret = some ESP_OK ↔ chunkCount len K ≤ fuel) ∧
      (fuel < chunkCount len K → r.ret = none) ∧
      (chunkCount len K ≤ fuel →
        r.calls.length = chunkCount len K ∧
        r.calls.map WriteCall.view
          = (List.range (chunkCount len K)).map (fun i =>
              (i * K, len - i * K, (buf1.drop (i * K)).take (len - i * K),
                min K (len - i * K))) ∧
        (r.calls.map WriteCall.written).sum = len) := by
  refine ⟨chunkCount_ceil hK hpos, ?_⟩
  have hl := writeLoop_chunks write buf1 len K hK hlen hacc fuel 0 hw0 []
  simp only [Nat.zero_mul, Nat.zero_min, List.map_nil, List.nil_append, Nat.sub_zero,
    Nat.zero_add] at hl
  obtain ⟨hcalls, hexit⟩ := hl
  refine ⟨_, by simp only [usb_uac_device_output_cb, htx, hproc]; rfl, rfl, ?_, ?_, ?_⟩
  · simp only [hexit]
    by_cases h : chunkCount len K ≤ fuel <;> simp [h]
  · intro h
    simp only [hexit]
    have : ¬ chunkCount len K ≤ fuel := by omega
    simp [this]
  · intro h
    have hview : (writeLoop write buf1 len fuel hw0 0 []).calls.map WriteCall.view
        = (List.range (chunkCount len K)).map (chunkView buf1 len K) := by
      rw [hcalls, Nat.min_eq_right h, List.range_eq_range']
    refine ⟨?_, hview, ?_⟩
    · have := congrArg List.length hview
      simpa using this
    · have hs := chunk_written_sum buf1 len K hK (chunkCount len K) (le_refl _)
      rw [← hview, List.map_map] at hs
      have e : ((fun v : Nat × Nat × List Nat × Nat => v.2.2.2) ∘ WriteCall.view)
          = WriteCall.written := rfl
      rw [e] at hs
      rw [hs]
      exact Nat.min_eq_right (chunkCount_ceil hK hpos).2

/-- Witness for C1: 100 bytes against a driver accepting 40, 40, 20. -/
theorem output_cb_chunked_write_witness :
    ∃ r, usb_uac_device_output_cb accept40 3 ⟨true, true, true, F32.fin 1⟩ ()
        (List.replicate 100 7) 100 = some r ∧
      r.ret = some ESP_OK ∧ r.calls.map WriteCall.offset = [0, 40, 80] ∧
      r.calls.map WriteCall.written = [40, 40, 20] := by
  have h := output_cb_chunked_write accept40 ⟨true, true, true, F32.fin 1⟩ ()
    (List.replicate 100 7) (List.replicate 100 0) 100 40 (by decide) (by decide) (by decide)
    rfl (by decide) (fun _ _ _ => rfl) 3
  obtain ⟨_, r, hr, _, hret, _, hc⟩ := h
  have hcnt : chunkCount 100 40 = 3 := by decide
  obtain ⟨_, hv, _⟩ := hc (by rw [hcnt])
  refine ⟨r, hr, hret.mpr (by rw [hcnt]), ?_, ?_⟩
  · have := congrArg (List.map (fun v : Nat × Nat × List Nat × Nat => v.1)) hv
    rw [List.map_map, hcnt] at this
    simpa [WriteCall.view, List.range_succ, Function.comp_def] using this
  · have := congrArg (List.map (fun v : Nat × Nat × List Nat × Nat => v.2.2.2)) hv
    rw [List.map_map, hcnt] at this
    simpa [WriteCall.view, List.range_succ, Function.comp_def] using this

/-! ## The sample loop -/

theorem length_writeSample (buf : List Nat) (i : Nat) (v : ℤ) :
    (writeSample buf i v).length = buf.length := by
  simp [writeSample]

theorem getD_writeSample_of_ne (buf : List Nat) (i : Nat) (v : ℤ) (b : Nat)
    (h1 : b ≠ 2 * i) (h2 : b ≠ 2 * i + 1) :
    (writeSample buf i v).getD b 0 = buf.getD b 0 := by
  simp only [writeSample, List.getD_eq_getElem?_getD]
  rw [List.getElem?_set_ne (Ne.symm h2), List.getElem?_set_ne (Ne.symm h1)]

theorem castI16_mod (v : ℤ) : castI16 (v % 65536) = castI16 v := by
  unfold castI16; omega

theorem castI16_of_range (v : ℤ) (h1 : -32768 ≤ v) (h2 : v ≤ 32767) : castI16 v = v := by
  unfold castI16; omega

theorem castI16_range (v : ℤ) : -32768 ≤ castI16 v ∧ castI16 v ≤ 32767 := by
  unfold castI16; omega

theorem readSample_writeSample_self (buf : List Nat) (i : Nat) (v : ℤ)
    (h : 2 * i + 1 < buf.length) : readSample (writeSample buf i v) i = castI16 v := by
  have hlo : (writeSample buf i v).getD (2 * i) 0 = (v % 65536).toNat % 256 := by
    simp only [writeSample, List.getD_eq_getElem?_getD]
    rw [List.getElem?_set_ne (by omega), List.getElem?_set_self (by omega)]
    rfl
  have hhi : (writeSample buf i v).getD (2 * i + 1) 0 = (v % 65536).toNat / 256 := by
    simp only [writeSample, List.getD_eq_getElem?_getD]
    rw [List.getElem?_set_self (by simp; omega)]
    rfl
  unfold readSample
  rw [hlo, hhi, ← castI16_mod v]
  congr 1
  have hnn : 0 ≤ v % 65536 := Int.emod_nonneg _ (by norm_num)
  have := Int.toNat_of_nonneg hnn
  omega

theorem readSample_writeSample_ne (buf : List Nat) (i j : Nat) (v : ℤ) (h : j ≠ i) :
    readSample (writeSample buf i v) j = readSample buf j := by
  unfold readSample
  rw [getD_writeSample_of_ne buf i v (2 * j) (by omega) (by omega),
    getD_writeSample_of_ne buf i v (2 * j + 1) (by omega) (by omega)]

theorem processSample_eq (st : Dev) (buf : List Nat) (i : Nat) :
    processSample st buf i = (sampleOut st (readSample buf i)).map (writeSample buf i) := by
  unfold processSample sampleOut
  by_cases hm : st.is_muted
  · simp [hm]
  · simp only [hm]
    cases scaleSample st.volume_factor (readSample buf i) <;> simp

/-- Effect of the sample loop when it completes: the length is kept, every sample of the
range is replaced by its `sampleOut`, and the bytes outside the range are untouched. -/
theorem processLoop_spec (st : Dev) :
    ∀ (k i : Nat) (buf out : List Nat), processLoop st k i buf = some out →
      out.length = buf.length ∧
      (∀ j, i ≤ j → j < i + k → 2 * j + 1 < buf.length →
        sampleOut st (readSample buf j) = some (readSample out j)) ∧
      (∀ b, (b < 2 * i ∨ 2 * (i + k) ≤ b) → out.getD b 0 = buf.getD b 0) := by
  intro k
  induction k with
  | zero =>
    intro i buf out h
    simp only [processLoop, Option.some.injEq] at h
    subst h
    exact ⟨rfl, fun j h1 h2 => by omega, fun _ _ => rfl⟩
  | succ k ih =>
    intro i buf out h
    simp only [processLoop, processSample_eq] at h
    cases hs : sampleOut st (readSample buf i) with
    | none => simp [hs] at h
    | some v =>
      simp only [hs, Option.map_some'] at h
      obtain ⟨hlen, hsm, hout⟩ := ih (i + 1) (writeSample buf i v) out h
      rw [length_writeSample] at hlen hsm
      refine ⟨hlen, ?_, ?_⟩
      · intro j h1 h2 h3
        by_cases hj : j = i
        · subst hj
          have hb := hout (2 * j) (Or.inl (by omega))
          have hb1 := hout (2 * j + 1) (Or.inl (by omega))
          have hr : readSample out j = readSample (writeSample buf j v) j := by
            unfold readSample; rw [hb, hb1]
          rw [hr, readSample_writeSample_self buf j v h3, hs]
          unfold sampleOut at hs
          by_cases hm : st.is_muted
          · simp only [hm, if_true, Option.some.injEq] at hs
            subst hs; rfl
          · simp only [hm] at hs
            cases hsc : scaleSample st.volume_factor (readSample buf j) with
            | none => simp [hsc] at hs
            | some w =>
              have hr := castI16_range w
              simp [hsc] at hs
              simp only [Option.some.injEq]
              rw [← hs, castI16_of_range _ hr.1 hr.2]
        · have := hsm j (by omega) (by omega) h3
          rw [readSample_writeSample_ne buf i j v hj] at this
          exact this
      · intro b hb
        rw [hout b (by omega)]
        exact getD_writeSample_of_ne buf i v b (by omega) (by omega)

/-- The sample loop completes when no conversion is undefined. -/
theorem processLoop_isSome (st : Dev) :
    ∀ (k i : Nat) (buf : List Nat),
      (∀ j, i ≤ j → j < i + k → (sampleOut st (readSample buf j)).isSome) →
      (processLoop st k i buf).isSome := by
  intro k
  induction k with
  | zero => intro i buf _; simp [processLoop]
  | succ k ih =>
    intro i buf h
    simp only [processLoop, processSample_eq]
    have h1 := h i (le_refl _) (by omega)
    cases hs : sampleOut st (readSample buf i) with
    | none => simp [hs] at h1
    | some v =>
      simp only [Option.map_some']
      apply ih (i + 1)
      intro j h1 h2
      rw [readSample_writeSample_ne buf i j v (by omega)]
      exact h j (by omega) (by omega)

/-- Every byte passed to the driver by the write loop is a byte of the buffer: each
recorded call carries the slice of `buf` at its offset, and ends at `len`. -/
theorem writeLoop_calls_slices {σ : Type} (write : I2sWrite σ) (buf : List Nat) (len : Nat) :
    ∀ (fuel : Nat) (s : σ) (total : Nat) (calls : List WriteCall),
      (∀ c ∈ calls, c.data = (buf.drop c.offset).take c.size ∧ c.offset + c.size = len) →
      ∀ c ∈ (writeLoop write buf len fuel s total calls).calls,
        c.data = (buf.drop c.offset).take c.size ∧ c.offset + c.size = len := by
  intro fuel
  induction fuel with
  | zero => intro s total calls h; simpa [writeLoop] using h
  | succ fuel ih =>
    intro s total calls h
    simp only [writeLoop]
    by_cases ht : total < len
    · simp only [ht, if_true]
      apply ih
      intro c hc
      rcases List.mem_append.mp hc with hc | hc
      · exact h c hc
      · simp only [List.mem_singleton] at hc
        subst hc
        exact ⟨rfl, by simp only; omega⟩
    · simpa [ht] using h

/-- The write loop only appends to the record of calls. -/
theorem writeLoop_calls_prefix {σ : Type} (write : I2sWrite σ) (buf : List Nat) (len : Nat) :
    ∀ (fuel : Nat) (s : σ) (total : Nat) (calls : List WriteCall),
      ∃ rest, (writeLoop write buf len fuel s total calls).calls = calls ++ rest := by
  intro fuel
  induction fuel with
  | zero => intro s total calls; exact ⟨[], by simp [writeLoop]⟩
  | succ fuel ih =>
    intro s total calls
    simp only [writeLoop]
    by_cases ht : total < len
    · simp only [ht, if_true]
      obtain ⟨rest, hr⟩ := ih (write s ((buf.drop total).take (len - total)) (len - total)).1
        ((total + (write s ((buf.drop total).take (len - total)) (len - total)).2.2) % SIZE_MOD)
        (calls ++ [⟨total, len - total, (buf.drop total).take (len - total),
          (write s ((buf.drop total).take (len - total)) (len - total)).2.1,
          (write s ((buf.drop total).take (len - total)) (len - total)).2.2⟩])
      exact ⟨_ :: rest, by rw [hr, List.append_assoc]; rfl⟩
    · exact ⟨[], by simp [ht]⟩

/-- On a non-empty transfer the first iteration of the write loop calls the driver with
the whole buffer: offset 0, size `len`, the first `len` bytes. -/
theorem writeLoop_first_call {σ : Type} (write : I2sWrite σ) (buf : List Nat) (len : Nat)
    (hpos : 0 < len) (fuel : Nat) (s : σ) :
    ∃ c rest, (writeLoop write buf len (fuel + 1) s 0 []).calls = c :: rest ∧
      c.offset = 0 ∧ c.size = len ∧ c.data = buf.take len := by
  simp only [writeLoop, hpos, if_true, List.nil_append, Nat.sub_zero, List.drop_zero,
    Nat.zero_add]
  obtain ⟨rest, hr⟩ := writeLoop_calls_prefix write buf len fuel (write s (buf.take len) len).1
    ((write s (buf.take len) len).2.2 % SIZE_MOD)
    [⟨0, len, buf.take len, (write s (buf.take len) len).2.1,
      (write s (buf.take len) len).2.2⟩]
  exact ⟨_, rest, hr, rfl, rfl, rfl⟩

/-- While the write loop has not exited, every iteration has called the driver. -/
theorem writeLoop_running_length {σ : Type} (write : I2sWrite σ) (buf : List Nat)
    (len : Nat) :
    ∀ (fuel : Nat) (s : σ) (total : Nat) (calls : List WriteCall),
      (writeLoop write buf len fuel s total calls).exited = false →
      (writeLoop write buf len fuel s total calls).calls.length = calls.length + fuel := by
  intro fuel
  induction fuel with
  | zero => intro s total calls _; simp [writeLoop]
  | succ fuel ih =>
    intro s total calls h
    simp only [writeLoop] at h ⊢
    by_cases ht : total < len
    · simp only [ht, if_true] at h ⊢
      rw [ih _ _ _ h]
      simp only [List.length_append, List.length_singleton]
      omega
    · simp [ht] at h


theorem getD_writeSample_zero (buf : List Nat) (i b : Nat) :
    (writeSample buf i 0).getD b 0 = if b = 2 * i ∨ b = 2 * i + 1 then 0 else buf.getD b 0 := by
  by_cases h : b = 2 * i ∨ b = 2 * i + 1
  · simp only [h, if_true, writeSample, List.getD_eq_getElem?_getD, List.getElem?_set]
    rcases h with h | h <;> subst h <;> simp <;> split_ifs <;> simp
  · simp only [h, if_false]
    exact getD_writeSample_of_ne buf i 0 b (by tauto) (by tauto)

/-- With `is_muted` set the sample loop always completes and zeroes exactly the bytes of
the samples it visits. -/
theorem processLoop_muted (st : Dev) (hm : st.is_muted = true) :
    ∀ (k i : Nat) (buf : List Nat), ∃ out, processLoop st k i buf = some out ∧
      out.length = buf.length ∧
      ∀ b, out.getD b 0 = if 2 * i ≤ b ∧ b < 2 * (i + k) then 0 else buf.getD b 0 := by
  intro k
  induction k with
  | zero =>
    intro i buf
    refine ⟨buf, rfl, rfl, fun b => ?_⟩
    have : ¬ (2 * i ≤ b ∧ b < 2 * (i + 0)) := by omega
    rw [if_neg this]
  | succ k ih =>
    intro i buf
    obtain ⟨out, ho, hl, hb⟩ := ih (i + 1) (writeSample buf i 0)
    refine ⟨out, ?_, ?_, ?_⟩
    · simp only [processLoop, processSample, hm, if_true]
      exact ho
    · rw [hl, length_writeSample]
    · intro b
      rw [hb b, getD_writeSample_zero]
      by_cases h1 : 2 * (i + 1) ≤ b ∧ b < 2 * (i + 1 + k)
      · have : 2 * i ≤ b ∧ b < 2 * (i + (k + 1)) := by omega
        rw [if_pos h1, if_pos this]
      · by_cases h2 : b = 2 * i ∨ b = 2 * i + 1
        · have : 2 * i ≤ b ∧ b < 2 * (i + (k + 1)) := by omega
          rw [if_neg h1, if_pos h2, if_pos this]
        · have : ¬ (2 * i ≤ b ∧ b < 2 * (i + (k + 1))) := by omega
          rw [if_neg h1, if_neg h2, if_neg this]

/-- C5. With the output handle present and `is_muted` set, for every buffer of even byte
length `len` and every value of `volume_factor`, the sample loop of
`usb_uac_device_output_cb` leaves all `len / 2` samples (all `len` bytes) equal to 0, and
those zeroed bytes are what the driver is passed: on a non-empty transfer the first
iteration of the write loop calls the driver at offset 0 with size `len` and `len` zero
bytes, the loop calls the driver once per iteration until it exits, and every call is
passed a slice of the zeroed buffer, so only zero bytes. -/
theorem output_cb_muted_zero {σ : Type} (write : I2sWrite σ) (st : Dev) (hw0 : σ)
    (buf : List Nat) (len fuel : Nat) (htx : st.tx = true) (hm : st.is_muted = true)
    (heven : len % 2 = 0) (hbuf : len ≤ buf.length) :
    ∃ r, usb_uac_device_output_cb write fuel st hw0 buf len = some r ∧
      r.buf.length = buf.length ∧
      (∀ i, i < len / 2 → readSample r.buf i = 0) ∧
      (∀ b, b < len → r.buf.getD b 0 = 0) ∧
      (∀ b, len ≤ b → r.buf.getD b 0 = buf.getD b 0) ∧
      (∀ c ∈ r.calls, c.data = (r.buf.drop c.offset).take c.size ∧
        c.data.length = c.size ∧ ∀ x ∈ c.data, x = 0) ∧
      (0 < len → 0 < fuel → ∃ c rest, r.calls = c :: rest ∧ c.offset = 0 ∧ c.size = len ∧
        c.data = List.replicate len 0) ∧
      (r.ret = none → r.calls.length = fuel) ∧
      (r.ret = none ∨ r.ret = some ESP_OK) := by
  obtain ⟨out, ho, hl, hb⟩ := processLoop_muted st hm (len / 2) 0 buf
  have hz : ∀ b, b < len → out.getD b 0 = 0 := by
    intro b hlt
    rw [hb b]
    have : 2 * 0 ≤ b ∧ b < 2 * (0 + len / 2) := by omega
    rw [if_pos this]
  have htake : out.take len = List.replicate len 0 := by
    rw [List.eq_replicate_iff]
    refine ⟨by rw [List.length_take]; omega, fun x hx => ?_⟩
    obtain ⟨n, hn, rfl⟩ := List.getElem_of_mem hx
    rw [List.length_take] at hn
    rw [List.getElem_take]
    have hlt : n < out.length := by omega
    have := hz n (by omega)
    rw [List.getD_eq_getElem?_getD, List.getElem?_eq_getElem hlt] at this
    simpa using this
  refine ⟨⟨_, out, _, _⟩, by simp only [usb_uac_device_output_cb, htx, ho]; rfl, hl, ?_, hz,
    ?_, ?_, ?_, ?_, ?_⟩
  · intro i hi
    show readSample out i = 0
    unfold readSample
    rw [hz (2 * i) (by omega), hz (2 * i + 1) (by omega)]
    rfl
  · intro b hge
    show out.getD b 0 = buf.getD b 0
    rw [hb b]
    have : ¬ (2 * 0 ≤ b ∧ b < 2 * (0 + len / 2)) := by omega
    rw [if_neg this]
  · intro c hc
    have hs := writeLoop_calls_slices write out len fuel hw0 0 [] (by simp) c hc
    show c.data = (out.drop c.offset).take c.size ∧ _
    refine ⟨hs.1, ?_, ?_⟩
    · rw [hs.1, List.length_take, List.length_drop]; omega
    · intro x hx
      rw [hs.1] at hx
      obtain ⟨n, hn, rfl⟩ := List.getElem_of_mem hx
      rw [List.length_take, List.length_drop] at hn
      rw [List.getElem_take, List.getElem_drop]
      have hlt : c.offset + n < out.length := by omega
      have := hz (c.offset + n) (by omega)
      rw [List.getD_eq_getElem?_getD, List.getElem?_eq_getElem hlt] at this
      simpa using this
  · intro hpos hfuel
    obtain ⟨k, rfl⟩ : ∃ k, fuel = k + 1 := ⟨fuel - 1, by omega⟩
    obtain ⟨c, rest, hc, h0, h1, h2⟩ := writeLoop_first_call write out len hpos k hw0
    exact ⟨c, rest, hc, h0, h1, by rw [h2, htake]⟩
  · intro hret
    show (writeLoop write out len fuel hw0 0 []).calls.length = fuel
    have hex : (writeLoop write out len fuel hw0 0 []).exited = false := by
      cases he : (writeLoop write out len fuel hw0 0 []).exited with
      | false => rfl
      | true =>
        have : (if (writeLoop write out len fuel hw0 0 []).exited then some ESP_OK
            else none) = none := hret
        rw [he] at this
        simp at this
    have := writeLoop_running_length write out len fuel hw0 0 [] hex
    simpa using this
  · show (if (writeLoop write out len fuel hw0 0 []).exited then some ESP_OK else none) = none
      ∨ (if (writeLoop write out len fuel hw0 0 []).exited then some ESP_OK else none)
        = some ESP_OK
    cases (writeLoop write out len fuel hw0 0 []).exited <;> simp

/-- Witness for C5: a transfer of four bytes after `usb_uac_device_set_mute_cb` with a
non-zero argument, the volume factor not even finite: the buffer is zeroed and the
driver is called with the four zero bytes. -/
theorem output_cb_muted_zero_witness :
    ∃ r, usb_uac_device_output_cb accept40 1
        (usb_uac_device_set_mute_cb ⟨true, false, false, F32.nonfin⟩ 1) ()
        [232, 3, 24, 252] 4 = some r ∧
      (∀ b, b < 4 → r.buf.getD b 0 = 0) ∧ (∀ c ∈ r.calls, ∀ x ∈ c.data, x = 0) ∧
      ∃ c rest, r.calls = c :: rest ∧ c.offset = 0 ∧ c.size = 4 ∧ c.data = [0, 0, 0, 0] := by
  obtain ⟨r, hr, _, _, hz, _, hc, hfirst, _⟩ := output_cb_muted_zero accept40
    (usb_uac_device_set_mute_cb ⟨true, false, false, F32.nonfin⟩ 1) () [232, 3, 24, 252]
    4 1 rfl rfl (by decide) (by decide)
  exact ⟨r, hr, hz, fun c h => (hc c h).2.2, hfirst (by decide) (by decide)⟩

/-! ## Missing handles and driver errors -/

/-- C6. With `tx` unset `usb_uac_device_output_cb` returns `ESP_FAIL` for every buffer and
length, and with `rx` unset so does `usb_uac_device_input_cb`; neither touches the buffer
nor calls the driver (no call is recorded and the driver state is unchanged). -/
theorem callbacks_fail_without_handle {σ : Type} (st : Dev) (hw0 : σ) (buf : List Nat)
    (len : Nat) :
    (st.tx = false → ∀ (write : I2sWrite σ) (fuel : Nat),
      usb_uac_device_output_cb write fuel st hw0 buf len
        = some ⟨some ESP_FAIL, buf, [], hw0⟩) ∧
    (st.rx = false → ∀ (read : I2sRead σ),
      usb_uac_device_input_cb read st hw0 buf len = ⟨ESP_FAIL, buf, none, [], hw0⟩) ∧
    ESP_FAIL ≠ ESP_OK := by
  refine ⟨?_, ?_, by decide⟩
  · intro h write fuel
    simp [usb_uac_device_output_cb, h]
  · intro h read
    simp [usb_uac_device_input_cb, h]

/-- Witness for C6: both handles unset. -/
theorem callbacks_fail_without_handle_witness :
    (usb_uac_device_output_cb accept40 9 ⟨false, false, false, F32.fin 1⟩ () [1, 2] 2).map
        (fun r => (r.ret, r.buf, r.calls)) = some (some ESP_FAIL, [1, 2], []) ∧
    (usb_uac_device_input_cb readOnes ⟨false, false, false, F32.fin 1⟩ () [1, 2] 2).ret
        = ESP_FAIL ∧
    (usb_uac_device_input_cb readOnes ⟨false, false, false, F32.fin 1⟩ () [1, 2] 2).calls
        = [] := by
  have h := callbacks_fail_without_handle ⟨false, false, false, F32.fin 1⟩ () [1, 2] 2
  refine ⟨?_, ?_, ?_⟩
  · rw [h.1 rfl accept40 9]; rfl
  · rw [h.2.1 rfl readOnes]
  · rw [h.2.1 rfl readOnes]

theorem writeLoop_failAlways (buf : List Nat) (len : Nat) (hpos : 0 < len) :
    ∀ (fuel : Nat) (calls : List WriteCall),
      (writeLoop failAlways buf len fuel () 0 calls).exited = false ∧
      (writeLoop failAlways buf len fuel () 0 calls).calls.length = calls.length + fuel ∧
      ∀ c ∈ (writeLoop failAlways buf len fuel () 0 calls).calls, c ∉ calls →
        c.status = ESP_FAIL ∧ c.offset = 0 ∧ c.size = len := by
  intro fuel
  induction fuel with
  | zero =>
    intro calls
    simp only [writeLoop, hpos, not_true_eq_false, decide_False, Nat.add_zero, true_and]
    exact fun c hc hnc => absurd hc hnc
  | succ fuel ih =>
    intro calls
    have h := ih (calls ++ [⟨0, len - 0, (buf.drop 0).take (len - 0), ESP_FAIL, 0⟩])
    simp only [writeLoop, hpos, if_true, failAlways, Nat.add_zero, Nat.zero_mod]
    refine ⟨h.1, ?_, ?_⟩
    · rw [h.2.1]; simp; omega
    · intro c hc hnc
      by_cases hm : c ∈ calls ++ [⟨0, len - 0, (buf.drop 0).take (len - 0), ESP_FAIL, 0⟩]
      · rcases List.mem_append.mp hm with hm | hm
        · exact absurd hm hnc
        · simp only [List.mem_singleton] at hm
          subst hm; simp
      · exact h.2.2 c hc hm

/-! ## Rounding to binary32 -/

theorem roundHalfEven_sub_le (q : ℚ) : |(roundHalfEven q : ℚ) - q| ≤ 1 / 2 := by
  have h1 := Int.floor_le q
  have h2 := Int.lt_floor_add_one q
  unfold roundHalfEven
  simp only
  split_ifs with a b c <;> push_cast <;> rw [abs_le] <;> constructor <;> linarith

theorem roundHalfEven_eq_of (q : ℚ) (n : ℤ) (h : |q - n| < 1 / 2) : roundHalfEven q = n := by
  have h1 := roundHalfEven_sub_le q
  rw [abs_le] at h1
  rw [abs_lt] at h
  have h3 : ((roundHalfEven q - n : ℤ) : ℚ) < 1 := by push_cast; linarith
  have h4 : (-1 : ℚ) < ((roundHalfEven q - n : ℤ) : ℚ) := by push_cast; linarith
  have h5 : roundHalfEven q - n < 1 := by exact_mod_cast h3
  have h6 : -1 < roundHalfEven q - n := by exact_mod_cast h4
  omega

theorem roundHalfEven_intCast (n : ℤ) : roundHalfEven (n : ℚ) = n :=
  roundHalfEven_eq_of _ n (by simp)

theorem roundHalfEven_le_of_le (q : ℚ) (n : ℤ) (h : q ≤ n) : roundHalfEven q ≤ n := by
  by_contra hc
  have hc1 : n + 1 ≤ roundHalfEven q := by omega
  have h1 := roundHalfEven_sub_le q
  rw [abs_le] at h1
  have h2 : ((n + 1 : ℤ) : ℚ) ≤ roundHalfEven q := by exact_mod_cast hc1
  push_cast at h2
  -- `roundHalfEven q ≥ n + 1 ≥ q + 1`, against the distance bound `1 / 2`
  linarith

theorem le_roundHalfEven_of_le (q : ℚ) (n : ℤ) (h : (n : ℚ) ≤ q) : n ≤ roundHalfEven q := by
  by_contra hc
  have hc1 : roundHalfEven q + 1 ≤ n := by omega
  have h1 := roundHalfEven_sub_le q
  rw [abs_le] at h1
  have h2 : ((roundHalfEven q + 1 : ℤ) : ℚ) ≤ n := by exact_mod_cast hc1
  push_cast at h2
  linarith

theorem binade_ge (q : ℚ) : -126 ≤ binade q := by
  unfold binade
  split_ifs
  · exact le_refl _
  · exact le_max_right _ _

theorem binade_eq_of (q : ℚ) (e : ℤ) (h1 : (2 : ℚ) ^ e ≤ |q|) (h2 : |q| < (2 : ℚ) ^ (e + 1))
    (he : -126 ≤ e) : binade q = e := by
  have hpos : 0 < |q| := lt_of_lt_of_le (zpow_pos (by norm_num) e) h1
  have a : e ≤ Int.log 2 |q| := (Int.zpow_le_iff_le_log (by norm_num) hpos).mp (by exact_mod_cast h1)
  have b : Int.log 2 |q| < e + 1 :=
    (Int.lt_zpow_iff_log_lt (by norm_num) hpos).mp (by exact_mod_cast h2)
  unfold binade
  rw [if_neg (abs_pos.mp hpos), max_eq_left (by omega)]
  omega

theorem binade_le_of (q : ℚ) (e : ℤ) (h2 : |q| < (2 : ℚ) ^ (e + 1)) (he : -126 ≤ e) :
    binade q ≤ e := by
  unfold binade
  split_ifs with hq
  · exact he
  · apply max_le _ he
    have hpos : 0 < |q| := abs_pos.mpr hq
    have b : Int.log 2 |q| < e + 1 :=
      (Int.lt_zpow_iff_log_lt (by norm_num) hpos).mp (by exact_mod_cast h2)
    omega

/-- In the normal range the binade exponent brackets the magnitude from below. -/
theorem zpow_binade_le (q : ℚ) (h : (2 : ℚ) ^ (-126 : ℤ) ≤ |q|) : (2 : ℚ) ^ binade q ≤ |q| := by
  have hpos : 0 < |q| := lt_of_lt_of_le (zpow_pos (by norm_num) _) h
  have a : (-126 : ℤ) ≤ Int.log 2 |q| :=
    (Int.zpow_le_iff_le_log (by norm_num) hpos).mp (by exact_mod_cast h)
  unfold binade
  rw [if_neg (abs_pos.mp hpos), max_eq_left a]
  exact_mod_cast Int.zpow_log_le_self (b := 2) (by norm_num) hpos

theorem roundF32_zero : roundF32 0 = 0 := by
  simp [roundF32, roundHalfEven]

/-- Rounding moves a value by at most half a grid step. -/
theorem roundF32_sub_le (q : ℚ) : |roundF32 q - q| ≤ (2 : ℚ) ^ (binade q - 24) := by
  have hu : (0 : ℚ) < 2 ^ (binade q - 23) := zpow_pos (by norm_num) _
  have h := roundHalfEven_sub_le (q / 2 ^ (binade q - 23))
  have e : roundF32 q - q
      = ((roundHalfEven (q / 2 ^ (binade q - 23)) : ℚ) - q / 2 ^ (binade q - 23))
        * 2 ^ (binade q - 23) := by
    unfold roundF32
    field_simp
  rw [e, abs_mul, abs_of_pos hu]
  have e2 : (2 : ℚ) ^ (binade q - 24) = 1 / 2 * 2 ^ (binade q - 23) := by
    rw [show binade q - 23 = (binade q - 24) + 1 by ring, zpow_add_one₀ (by norm_num)]
    ring
  rw [e2]
  exact mul_le_mul_of_nonneg_right h (le_of_lt hu)

/-- Relative rounding error `2 ^ (-24)` in the normal range. -/
theorem roundF32_rel (q : ℚ) (h : (2 : ℚ) ^ (-126 : ℤ) ≤ |q|) :
    |roundF32 q - q| ≤ |q| / 2 ^ 24 := by
  have h1 := roundF32_sub_le q
  have h2 := zpow_binade_le q h
  have e : (2 : ℚ) ^ (binade q - 24) = 2 ^ binade q / 2 ^ 24 := by
    rw [zpow_sub₀ (by norm_num)]; norm_num
  rw [e] at h1
  exact le_trans h1 (div_le_div_of_nonneg_right h2 (by norm_num))

/-- Evaluation of `roundF32`: binade exponent `e` and nearest grid point `n`. -/
theorem roundF32_eval (q : ℚ) (e n : ℤ) (h1 : (2 : ℚ) ^ e ≤ |q|) (h2 : |q| < (2 : ℚ) ^ (e + 1))
    (he : -126 ≤ e) (hn : |q / 2 ^ (e - 23) - n| < 1 / 2) :
    roundF32 q = n * 2 ^ (e - 23) := by
  unfold roundF32
  simp only [binade_eq_of q e h1 h2 he]
  rw [roundHalfEven_eq_of _ n hn]

/-- A value on the grid of its own binade is not moved. -/
theorem roundF32_of_grid (q : ℚ) (n : ℤ) (h : q = n * 2 ^ (binade q - 23)) :
    roundF32 q = q := by
  have hu : (0 : ℚ) < 2 ^ (binade q - 23) := zpow_pos (by norm_num) _
  have e : q / 2 ^ (binade q - 23) = n := by
    rw [div_eq_iff (ne_of_gt hu)]
    exact h
  unfold roundF32
  simp only [e, roundHalfEven_intCast]
  exact h.symm

/-- A dyadic value `m * 2 ^ k` whose exponent `k` is not below the grid exponent of its
binade is not moved. -/
theorem roundF32_dyadic (m k : ℤ) (h : binade ((m : ℚ) * 2 ^ k) - 23 ≤ k) :
    roundF32 ((m : ℚ) * 2 ^ k) = (m : ℚ) * 2 ^ k := by
  obtain ⟨d, hd⟩ : ∃ d : ℕ, k = binade ((m : ℚ) * 2 ^ k) - 23 + d :=
    ⟨(k - (binade ((m : ℚ) * 2 ^ k) - 23)).toNat, by omega⟩
  apply roundF32_of_grid _ (m * 2 ^ d)
  have e : (2 : ℚ) ^ k = 2 ^ d * 2 ^ (binade ((m : ℚ) * 2 ^ k) - 23) := by
    conv_lhs => rw [hd]
    rw [zpow_add₀ (by norm_num), zpow_natCast]
    ring
  push_cast
  rw [mul_assoc, ← e]

/-- Integers below `2 ^ 24` in magnitude are binary32 values. -/
theorem roundF32_intCast (n : ℤ) (h : |n| < 2 ^ 24) : roundF32 (n : ℚ) = n := by
  have hq : |(n : ℚ)| < 2 ^ ((23 : ℤ) + 1) := by
    have : ((|n| : ℤ) : ℚ) < ((2 ^ 24 : ℤ) : ℚ) := by exact_mod_cast h
    rw [Int.cast_abs] at this
    norm_num at this ⊢
    exact this
  have hb := binade_le_of (n : ℚ) 23 hq (by norm_num)
  have := roundF32_dyadic n 0 (by simpa using hb)
  simpa using this

theorem roundF32_one_thousandth : roundF32 (1 / 1000) = 8589935 / 8589934592 := by
  rw [roundF32_eval (1 / 1000) (-10) 8589935 (by norm_num [abs_of_pos])
    (by norm_num [abs_of_pos]) (by norm_num) (by norm_num [abs_lt])]
  norm_num

/-- Rounding does not cross an integer that is itself a binary32 value (from above). -/
theorem roundF32_le_int (x : ℚ) (B : ℤ) (hB : |B| < 2 ^ 24) (h : x ≤ B) : roundF32 x ≤ B := by
  have hB' : (-(2 : ℚ) ^ 24 + 1 ≤ B) ∧ ((B : ℚ) ≤ 2 ^ 24 - 1) := by
    rw [abs_lt] at hB
    have h1 : -(2 : ℤ) ^ 24 + 1 ≤ B := by omega
    have h2 : B ≤ (2 : ℤ) ^ 24 - 1 := by omega
    exact ⟨by exact_mod_cast h1, by exact_mod_cast h2⟩
  by_cases hx : |x| < 2 ^ ((23 : ℤ) + 1)
  · have hb := binade_le_of x 23 hx (by norm_num)
    obtain ⟨d, hd⟩ : ∃ d : ℕ, (0 : ℤ) = binade x - 23 + d := ⟨(23 - binade x).toNat, by omega⟩
    have hu : (0 : ℚ) < 2 ^ (binade x - 23) := zpow_pos (by norm_num) _
    have e : (1 : ℚ) = 2 ^ d * 2 ^ (binade x - 23) := by
      rw [← zpow_natCast, ← zpow_add₀ (by norm_num), add_comm, ← hd, zpow_zero]
    have hq : x / 2 ^ (binade x - 23) ≤ ((B * 2 ^ d : ℤ) : ℚ) := by
      rw [div_le_iff₀ hu]
      push_cast
      rw [mul_assoc, ← e, mul_one]
      exact h
    have hr := roundHalfEven_le_of_le _ _ hq
    have hr' : (roundHalfEven (x / 2 ^ (binade x - 23)) : ℚ) ≤ ((B * 2 ^ d : ℤ) : ℚ) := by
      exact_mod_cast hr
    unfold roundF32
    calc (roundHalfEven (x / 2 ^ (binade x - 23)) : ℚ) * 2 ^ (binade x - 23)
        ≤ ((B * 2 ^ d : ℤ) : ℚ) * 2 ^ (binade x - 23) :=
          mul_le_mul_of_nonneg_right hr' (le_of_lt hu)
      _ = B := by push_cast; rw [mul_assoc, ← e, mul_one]
  · have hx' : (2 : ℚ) ^ 24 ≤ |x| := by
      have := not_lt.mp hx
      norm_num at this ⊢
      exact this
    have hneg : x < 0 := by
      by_contra hc
      rw [abs_of_nonneg (not_lt.mp hc)] at hx'
      linarith [hB'.2]
    rw [abs_of_neg hneg] at hx'
    have hrel := roundF32_rel x (by
      rw [abs_of_neg hneg]
      refine le_trans ?_ hx'
      exact le_trans (zpow_le_zpow_right₀ (by norm_num) (by norm_num : (-126 : ℤ) ≤ 0))
        (by norm_num))
    rw [abs_of_neg hneg, abs_le] at hrel
    have h24 : (0 : ℚ) < 2 ^ 24 := by norm_num
    have : -x / 2 ^ 24 ≤ -x - 2 ^ 24 + 1 := by
      rw [div_le_iff₀ h24]
      nlinarith
    linarith [hB'.1, hrel.2]

/-- Rounding does not cross an integer that is itself a binary32 value (from below). -/
theorem int_le_roundF32 (x : ℚ) (B : ℤ) (hB : |B| < 2 ^ 24) (h : (B : ℚ) ≤ x) :
    (B : ℚ) ≤ roundF32 x := by
  have hB' : (-(2 : ℚ) ^ 24 + 1 ≤ B) ∧ ((B : ℚ) ≤ 2 ^ 24 - 1) := by
    rw [abs_lt] at hB
    have h1 : -(2 : ℤ) ^ 24 + 1 ≤ B := by omega
    have h2 : B ≤ (2 : ℤ) ^ 24 - 1 := by omega
    exact ⟨by exact_mod_cast h1, by exact_mod_cast h2⟩
  by_cases hx : |x| < 2 ^ ((23 : ℤ) + 1)
  · have hb := binade_le_of x 23 hx (by norm_num)
    obtain ⟨d, hd⟩ : ∃ d : ℕ, (0 : ℤ) = binade x - 23 + d := ⟨(23 - binade x).toNat, by omega⟩
    have hu : (0 : ℚ) < 2 ^ (binade x - 23) := zpow_pos (by norm_num) _
    have e : (1 : ℚ) = 2 ^ d * 2 ^ (binade x - 23) := by
      rw [← zpow_natCast, ← zpow_add₀ (by norm_num), add_comm, ← hd, zpow_zero]
    have hq : ((B * 2 ^ d : ℤ) : ℚ) ≤ x / 2 ^ (binade x - 23) := by
      rw [le_div_iff₀ hu]
      push_cast
      rw [mul_assoc, ← e, mul_one]
      exact h
    have hr := le_roundHalfEven_of_le _ _ hq
    have hr' : ((B * 2 ^ d : ℤ) : ℚ) ≤ (roundHalfEven (x / 2 ^ (binade x - 23)) : ℚ) := by
      exact_mod_cast hr
    unfold roundF32
    calc (B : ℚ) = ((B * 2 ^ d : ℤ) : ℚ) * 2 ^ (binade x - 23) := by
          push_cast; rw [mul_assoc, ← e, mul_one]
      _ ≤ (roundHalfEven (x / 2 ^ (binade x - 23)) : ℚ) * 2 ^ (binade x - 23) :=
          mul_le_mul_of_nonneg_right hr' (le_of_lt hu)
  · have hx' : (2 : ℚ) ^ 24 ≤ |x| := by
      have := not_lt.mp hx
      norm_num at this ⊢
      exact this
    have hpos : 0 ≤ x := by
      by_contra hc
      rw [abs_of_neg (not_le.mp hc)] at hx'
      linarith [hB'.1]
    rw [abs_of_nonneg hpos] at hx'
    have hrel := roundF32_rel x (by
      rw [abs_of_nonneg hpos]
      refine le_trans ?_ hx'
      exact le_trans (zpow_le_zpow_right₀ (by norm_num) (by norm_num : (-126 : ℤ) ≤ 0))
        (by norm_num))
    rw [abs_of_nonneg hpos, abs_le] at hrel
    have h24 : (0 : ℚ) < 2 ^ 24 := by norm_num
    have : x / 2 ^ 24 ≤ x - 2 ^ 24 + 1 := by
      rw [div_le_iff₀ h24]
      nlinarith
    linarith [hB'.2, hrel.1]

/-! ## Scaling of one sample -/

theorem truncZ_intCast (n : ℤ) : truncZ (n : ℚ) = n := by
  unfold truncZ
  split_ifs <;> simp

theorem truncZ_mono_int_le (x : ℚ) (n : ℤ) (h : (n : ℚ) ≤ x) : n ≤ truncZ x := by
  unfold truncZ
  split_ifs with h0
  · exact Int.le_floor.mpr h
  · exact le_trans (Int.le_floor.mpr h) (Int.floor_le_ceil x)

theorem truncZ_mono_le_int (x : ℚ) (n : ℤ) (h : x ≤ n) : truncZ x ≤ n := by
  unfold truncZ
  split_ifs with h0
  · exact le_trans (Int.floor_le_ceil x) (Int.ceil_le.mpr h)
  · exact Int.ceil_le.mpr h

theorem readSample_range (buf : List Nat) (i : Nat) :
    -32768 ≤ readSample buf i ∧ readSample buf i ≤ 32767 :=
  castI16_range _

/-- Unfolding of `scaleSample` on a finite factor whose conversion is defined. -/
theorem scaleSample_of_cast (f : ℚ) (s v : ℤ) (h : castI32 (roundF32 ((s : ℚ) * f)) = some v) :
    scaleSample (F32.fin f) s
      = some (if v > 32767 then 32767 else if v < -32768 then -32768 else v) := by
  unfold scaleSample
  simp only [h]
  split_ifs <;> rfl

theorem castI32_eq_some (x : ℚ) (v : ℤ) (h : castI32 x = some v) : v = truncZ x := by
  unfold castI32 at h
  simp only at h
  split_ifs at h
  simp only [Option.some.injEq] at h
  exact h.symm

/-- For a 16-bit sample and a factor in `[0, 1]` the binary32 product stays in the 16-bit
range, the conversion is defined and the clamp changes nothing. -/
theorem scaleSample_unit (f : ℚ) (s : ℤ) (hf0 : 0 ≤ f) (hf1 : f ≤ 1)
    (hs1 : -32768 ≤ s) (hs2 : s ≤ 32767) :
    scaleSample (F32.fin f) s = some (truncZ (roundF32 ((s : ℚ) * f))) ∧
    -32768 ≤ truncZ (roundF32 ((s : ℚ) * f)) ∧ truncZ (roundF32 ((s : ℚ) * f)) ≤ 32767 := by
  have hsq1 : (-32768 : ℚ) ≤ s := by exact_mod_cast hs1
  have hsq2 : (s : ℚ) ≤ 32767 := by exact_mod_cast hs2
  have hx1 : ((-32768 : ℤ) : ℚ) ≤ (s : ℚ) * f := by
    push_cast
    by_cases h0 : 0 ≤ (s : ℚ)
    · have := mul_nonneg h0 hf0; linarith
    · nlinarith
  have hx2 : (s : ℚ) * f ≤ ((32767 : ℤ) : ℚ) := by
    push_cast
    by_cases h0 : 0 ≤ (s : ℚ)
    · nlinarith
    · have := mul_nonpos_of_nonpos_of_nonneg (le_of_lt (not_le.mp h0)) hf0; linarith
  have h1 := int_le_roundF32 _ (-32768) (by norm_num) hx1
  have h2 := roundF32_le_int _ 32767 (by norm_num) hx2
  have t1 := truncZ_mono_int_le _ _ h1
  have t2 := truncZ_mono_le_int _ _ h2
  have hc : castI32 (roundF32 ((s : ℚ) * f)) = some (truncZ (roundF32 ((s : ℚ) * f))) := by
    unfold castI32
    simp only
    rw [if_pos ⟨by omega, by omega⟩]
  refine ⟨?_, t1, t2⟩
  rw [scaleSample_of_cast f s _ hc, if_neg (by omega), if_neg (by omega)]

/-- Saturation in terms of the exact product: above the range the result is `32767`, below
it `-32768`, inside it the truncated binary32 product. -/
theorem scaleSample_saturates (f : ℚ) (s v : ℤ) (h : castI32 (roundF32 ((s : ℚ) * f)) = some v) :
    ((32767 : ℚ) < s * f → scaleSample (F32.fin f) s = some 32767) ∧
    ((s : ℚ) * f < -32768 → scaleSample (F32.fin f) s = some (-32768)) ∧
    ((-32768 : ℚ) ≤ s * f → (s : ℚ) * f ≤ 32767 → scaleSample (F32.fin f) s = some v) := by
  have hv := castI32_eq_some _ _ h
  rw [scaleSample_of_cast f s v h]
  refine ⟨?_, ?_, ?_⟩
  · intro hx
    have h1 := int_le_roundF32 ((s : ℚ) * f) 32767 (by norm_num) (by push_cast; exact le_of_lt hx)
    have t1 := truncZ_mono_int_le _ _ h1
    split_ifs <;> first | rfl | (congr 1; omega)
  · intro hx
    have h1 := roundF32_le_int ((s : ℚ) * f) (-32768) (by norm_num)
      (by push_cast; exact le_of_lt hx)
    have t1 := truncZ_mono_le_int _ _ h1
    split_ifs <;> first | rfl | (congr 1; omega)
  · intro hx1 hx2
    have h1 := int_le_roundF32 ((s : ℚ) * f) (-32768) (by norm_num) (by push_cast; exact hx1)
    have h2 := roundF32_le_int ((s : ℚ) * f) 32767 (by norm_num) (by push_cast; exact hx2)
    have t1 := truncZ_mono_int_le _ _ h1
    have t2 := truncZ_mono_le_int _ _ h2
    rw [if_neg (by omega), if_neg (by omega)]

/-- What `usb_uac_device_output_cb` leaves in the buffer, for any driver and fuel: when
the handle is present and no conversion is undefined, every sample of the transfer is
replaced by its `sampleOut`. -/
theorem output_cb_samples {σ : Type} (write : I2sWrite σ) (st : Dev) (hw0 : σ)
    (buf : List Nat) (len fuel : Nat) (htx : st.tx = true) (hbuf : len ≤ buf.length)
    (hdef : ∀ i, i < len / 2 → (sampleOut st (readSample buf i)).isSome) :
    ∃ r, usb_uac_device_output_cb write fuel st hw0 buf len = some r ∧
      r.buf.length = buf.length ∧
      ∀ i, i < len / 2 → sampleOut st (readSample buf i) = some (readSample r.buf i) := by
  have hsome := processLoop_isSome st (len / 2) 0 buf
    (fun j _ h => hdef j (by omega))
  obtain ⟨out, ho⟩ := Option.isSome_iff_exists.mp hsome
  obtain ⟨hl, hs, _⟩ := processLoop_spec st (len / 2) 0 buf out ho
  refine ⟨⟨_, out, _, _⟩, by simp only [usb_uac_device_output_cb, htx, ho]; rfl, hl, ?_⟩
  intro i hi
  exact hs i (Nat.zero_le _) (by omega) (by omega)

/-- C3 (amended). With the handle present, mute off and a factor `f` in `[0.001, 1.0]`,
every sample `s` of the transfer is replaced by the binary32 product `s * f` truncated
toward zero (not rounded to nearest); the result lies in `[-32768, 32767]`, so the clamp
never changes it, and the binary32 product is within `2 ^ (-9)` of the exact one. -/
theorem output_cb_scales_by_truncation {σ : Type} (write : I2sWrite σ) (st : Dev) (hw0 : σ)
    (buf : List Nat) (len fuel : Nat) (f : ℚ) (htx : st.tx = true)
    (hm : st.is_muted = false) (hvf : st.volume_factor = F32.fin f)
    (hf0 : 1 / 1000 ≤ f) (hf1 : f ≤ 1) (hbuf : len ≤ buf.length) :
    ∃ r, usb_uac_device_output_cb write fuel st hw0 buf len = some r ∧
      ∀ i, i < len / 2 →
        readSample r.buf i = truncZ (roundF32 ((readSample buf i : ℚ) * f)) ∧
        -32768 ≤ readSample r.buf i ∧ readSample r.buf i ≤ 32767 ∧
        |roundF32 ((readSample buf i : ℚ) * f) - (readSample buf i : ℚ) * f| ≤ 1 / 512 := by
  have hf0' : (0 : ℚ) ≤ f := le_trans (by norm_num) hf0
  have hso : ∀ s : ℤ, -32768 ≤ s → s ≤ 32767 →
      sampleOut st s = some (truncZ (roundF32 ((s : ℚ) * f))) := by
    intro s h1 h2
    obtain ⟨e, a, b⟩ := scaleSample_unit f s hf0' hf1 h1 h2
    unfold sampleOut
    rw [hm, hvf, e]
    simp only [Bool.false_eq_true, if_false, Option.map_some']
    rw [castI16_of_range _ a b]
  obtain ⟨r, hr, _, hs⟩ := output_cb_samples write st hw0 buf len fuel htx hbuf
    (fun i _ => by
      rw [hso _ (readSample_range buf i).1 (readSample_range buf i).2]; rfl)
  refine ⟨r, hr, fun i hi => ?_⟩
  have h1 := (readSample_range buf i).1
  have h2 := (readSample_range buf i).2
  have e := hs i hi
  rw [hso _ h1 h2, Option.some.injEq] at e
  obtain ⟨_, a, b⟩ := scaleSample_unit f (readSample buf i) hf0' hf1 h1 h2
  refine ⟨e.symm, by rw [← e]; exact a, by rw [← e]; exact b, ?_⟩
  have hsq1 : (-32768 : ℚ) ≤ (readSample buf i : ℚ) := by exact_mod_cast h1
  have hsq2 : ((readSample buf i : ℤ) : ℚ) ≤ 32767 := by exact_mod_cast h2
  have habs : |(readSample buf i : ℚ) * f| < 2 ^ ((15 : ℤ) + 1) := by
    rw [abs_mul, abs_of_nonneg hf0']
    have : |(readSample buf i : ℚ)| ≤ 32768 := abs_le.mpr ⟨by linarith, by linarith⟩
    calc |(readSample buf i : ℚ)| * f ≤ 32768 * 1 :=
          mul_le_mul this hf1 hf0' (by norm_num)
      _ < 2 ^ ((15 : ℤ) + 1) := by norm_num
  have hb := binade_le_of _ 15 habs (by norm_num)
  refine le_trans (roundF32_sub_le _) ?_
  calc (2 : ℚ) ^ (binade ((readSample buf i : ℚ) * f) - 24) ≤ 2 ^ ((15 : ℤ) - 24) :=
        zpow_le_zpow_right₀ (by norm_num) (by omega)
    _ = 1 / 512 := by norm_num

theorem readSample_example :
    readSample [232, 3, 24, 252, 0, 125, 0, 131] 0 = 1000 ∧
    readSample [232, 3, 24, 252, 0, 125, 0, 131] 1 = -1000 ∧
    readSample [232, 3, 24, 252, 0, 125, 0, 131] 2 = 32000 ∧
    readSample [232, 3, 24, 252, 0, 125, 0, 131] 3 = -32000 := by decide

theorem scaled_int (s : ℤ) (f : ℚ) (n : ℤ) (h : (s : ℚ) * f = n) (hn : |n| < 2 ^ 24) :
    truncZ (roundF32 ((s : ℚ) * f)) = n := by
  rw [h, roundF32_intCast n hn, truncZ_intCast]

/-- Witness for C3 (amended): `[1000, -1000, 32000, -32000]` at factor `0.5`. -/
theorem output_cb_scales_by_truncation_witness :
    ∃ r, usb_uac_device_output_cb accept40 1 ⟨true, true, false, F32.fin (1 / 2)⟩ ()
        [232, 3, 24, 252, 0, 125, 0, 131] 8 = some r ∧
      readSample r.buf 0 = 500 ∧ readSample r.buf 1 = -500 ∧
      readSample r.buf 2 = 16000 ∧ readSample r.buf 3 = -16000 := by
  obtain ⟨r, hr, h⟩ := output_cb_scales_by_truncation accept40
    ⟨true, true, false, F32.fin (1 / 2)⟩ () [232, 3, 24, 252, 0, 125, 0, 131] 8 1 (1 / 2)
    rfl rfl rfl (by norm_num) (by norm_num) (by decide)
  obtain ⟨e0, e1, e2, e3⟩ := readSample_example
  refine ⟨r, hr, ?_, ?_, ?_, ?_⟩
  · rw [(h 0 (by decide)).1, e0]; exact scaled_int _ _ 500 (by norm_num) (by norm_num)
  · rw [(h 1 (by decide)).1, e1]; exact scaled_int _ _ (-500) (by norm_num) (by norm_num)
  · rw [(h 2 (by decide)).1, e2]; exact scaled_int _ _ 16000 (by norm_num) (by norm_num)
  · rw [(h 3 (by decide)).1, e3]; exact scaled_int _ _ (-16000) (by norm_num) (by norm_num)

/-- C3 (counterexample). The sample `7` at factor `0.25` (exact in binary32, product
`1.75`) is written back as `1`, while `1.75` rounded to nearest and clamped is `2`. -/
theorem output_cb_rounds_counterexample :
    ∃ r, usb_uac_device_output_cb accept40 1 ⟨true, true, false, F32.fin (1 / 4)⟩ ()
        [7, 0] 2 = some r ∧ readSample [7, 0] 0 = 7 ∧ readSample r.buf 0 = 1 ∧
      max (-32768) (min 32767 (round (((7 : ℤ) : ℚ) * (1 / 4)))) = 2 ∧
      max (-32768) (min 32767 (roundHalfEven (((7 : ℤ) : ℚ) * (1 / 4)))) = 2 := by
  have hs7 : readSample [7, 0] 0 = 7 := by decide
  have hx : ((7 : ℤ) : ℚ) * (1 / 4) = ((7 : ℤ) : ℚ) * 2 ^ (-2 : ℤ) := by norm_num
  have hround : roundF32 (((7 : ℤ) : ℚ) * (1 / 4)) = 7 / 4 := by
    rw [hx, roundF32_dyadic 7 (-2)]
    · norm_num
    · have := binade_le_of (((7 : ℤ) : ℚ) * 2 ^ (-2 : ℤ)) 1 (by norm_num [abs_of_pos])
        (by norm_num)
      omega
  have htr : truncZ (7 / 4 : ℚ) = 1 := by
    unfold truncZ
    rw [if_pos (by norm_num), Int.floor_eq_iff]
    norm_num
  have hso : sampleOut ⟨true, true, false, F32.fin (1 / 4)⟩ 7 = some 1 := by
    obtain ⟨e, _, _⟩ := scaleSample_unit (1 / 4) 7 (by norm_num) (by norm_num) (by norm_num)
      (by norm_num)
    unfold sampleOut
    simp only [Bool.false_eq_true, if_false, e, hround, htr, Option.map_some']
    rfl
  obtain ⟨r, hr, _, hs⟩ := output_cb_samples accept40
    ⟨true, true, false, F32.fin (1 / 4)⟩ () [7, 0] 2 1 rfl (by decide)
    (fun i hi => by
      have : i = 0 := by
        have : (2 : ℕ) / 2 = 1 := by decide
        omega
      subst this
      rw [hs7, hso]; rfl)
  have e := hs 0 (by decide)
  rw [hs7, hso, Option.some.injEq] at e
  have hrd : round (((7 : ℤ) : ℚ) * (1 / 4)) = 2 := by
    rw [round_eq, Int.floor_eq_iff]
    norm_num
  have hre : roundHalfEven (((7 : ℤ) : ℚ) * (1 / 4)) = 2 :=
    roundHalfEven_eq_of _ 2 (by norm_num [abs_lt])
  refine ⟨r, hr, hs7, e.symm, ?_, ?_⟩
  · rw [hrd]; decide
  · rw [hre]; decide

/-- C4. With the handle present and mute off, for every factor `f` (also above `1.0`) for
which the scaled value of each sample of the transfer converts to an `int32_t`, every
sample is written back saturated: `32767` when the scaled value `v` exceeds `32767`,
`-32768` when it is below `-32768`, otherwise `v` itself; in terms of the exact product
`s * f`: `32767` above the range, `-32768` below it, and `v` inside it. -/
theorem output_cb_saturates {σ : Type} (write : I2sWrite σ) (st : Dev) (hw0 : σ)
    (buf : List Nat) (len fuel : Nat) (f : ℚ) (htx : st.tx = true)
    (hm : st.is_muted = false) (hvf : st.volume_factor = F32.fin f) (hbuf : len ≤ buf.length)
    (hfit : ∀ i, i < len / 2 →
      (castI32 (roundF32 ((readSample buf i : ℚ) * f))).isSome) :
    ∃ r, usb_uac_device_output_cb write fuel st hw0 buf len = some r ∧
      ∀ i, i < len / 2 →
        ∃ v, castI32 (roundF32 ((readSample buf i : ℚ) * f)) = some v ∧
          v = truncZ (roundF32 ((readSample buf i : ℚ) * f)) ∧
          readSample r.buf i
            = (if v > 32767 then 32767 else if v < -32768 then -32768 else v) ∧
          ((32767 : ℚ) < readSample buf i * f → readSample r.buf i = 32767) ∧
          ((readSample buf i : ℚ) * f < -32768 → readSample r.buf i = -32768) ∧
          ((-32768 : ℚ) ≤ readSample buf i * f → (readSample buf i : ℚ) * f ≤ 32767 →
            readSample r.buf i = v) := by
  have hso : ∀ (s v : ℤ), castI32 (roundF32 ((s : ℚ) * f)) = some v →
      sampleOut st s = some (if v > 32767 then 32767 else if v < -32768 then -32768 else v) := by
    intro s v hv
    unfold sampleOut
    rw [hm, hvf, scaleSample_of_cast f s v hv]
    simp only [Bool.false_eq_true, if_false, Option.map_some', Option.some.injEq]
    apply castI16_of_range <;> split_ifs <;> omega
  obtain ⟨r, hr, _, hs⟩ := output_cb_samples write st hw0 buf len fuel htx hbuf
    (fun i hi => by
      obtain ⟨v, hv⟩ := Option.isSome_iff_exists.mp (hfit i hi)
      rw [hso _ v hv]; rfl)
  refine ⟨r, hr, fun i hi => ?_⟩
  obtain ⟨v, hv⟩ := Option.isSome_iff_exists.mp (hfit i hi)
  have e := hs i hi
  rw [hso _ v hv, Option.some.injEq] at e
  obtain ⟨a, b, c⟩ := scaleSample_saturates f (readSample buf i) v hv
  rw [scaleSample_of_cast f _ v hv] at a b c
  refine ⟨v, hv, castI32_eq_some _ _ hv, e.symm, ?_, ?_, ?_⟩
  · intro h
    have := a h
    rw [Option.some.injEq] at this
    rw [← e, this]
  · intro h
    have := b h
    rw [Option.some.injEq] at this
    rw [← e, this]
  · intro h1 h2
    have := c h1 h2
    rw [Option.some.injEq] at this
    rw [← e, this]

/-- Witness for C4: the sample `30000` at factor `1.5` is written back as `32767`. -/
theorem output_cb_saturates_witness :
    ∃ r, usb_uac_device_output_cb accept40 1 ⟨true, true, false, F32.fin (3 / 2)⟩ ()
        [48, 117] 2 = some r ∧ readSample [48, 117] 0 = 30000 ∧ readSample r.buf 0 = 32767 := by
  have hs : readSample [48, 117] 0 = 30000 := by decide
  have hx : ((30000 : ℤ) : ℚ) * (3 / 2) = ((45000 : ℤ) : ℚ) := by norm_num
  have hc : castI32 (roundF32 (((30000 : ℤ) : ℚ) * (3 / 2))) = some 45000 := by
    rw [hx, roundF32_intCast 45000 (by norm_num)]
    unfold castI32
    simp only [truncZ_intCast]
    decide
  obtain ⟨r, hr, h⟩ := output_cb_saturates accept40 ⟨true, true, false, F32.fin (3 / 2)⟩ ()
    [48, 117] 2 1 (3 / 2) rfl rfl rfl (by decide)
    (fun i hi => by
      have : i = 0 := by
        have : (2 : ℕ) / 2 = 1 := by decide
        omega
      subst this
      rw [hs, hc]; rfl)
  obtain ⟨v, hv, _, e, _⟩ := h 0 (by decide)
  rw [hs, hc, Option.some.injEq] at hv
  subst hv
  exact ⟨r, hr, hs, by rw [e]; decide⟩

/-- At factor `1.0` every 16-bit sample is written back unchanged. -/
theorem sampleOut_unity (st : Dev) (hm : st.is_muted = false)
    (hvf : st.volume_factor = F32.fin 1) (s : ℤ) (h1 : -32768 ≤ s) (h2 : s ≤ 32767) :
    sampleOut st s = some s := by
  obtain ⟨e, _, _⟩ := scaleSample_unit 1 s (by norm_num) (by norm_num) h1 h2
  have hr : roundF32 ((s : ℚ) * 1) = s := by
    rw [mul_one]
    exact roundF32_intCast s (by rw [abs_lt]; constructor <;> omega)
  unfold sampleOut
  rw [hm, hvf, e, hr, truncZ_intCast]
  simp only [Bool.false_eq_true, if_false, Option.map_some']
  rw [castI16_of_range _ h1 h2]

/-- The write loop against `failOnce`: the failed call is followed by a second call for
the same bytes, after which the loop exits. -/
theorem writeLoop_failOnce (buf : List Nat) (len : Nat) (hpos : 0 < len)
    (hlen : len < SIZE_MOD) :
    (writeLoop failOnce buf len 2 0 0 []).exited = true ∧
    (writeLoop failOnce buf len 2 0 0 []).calls
      = [⟨0, len, buf.take len, ESP_FAIL, 0⟩, ⟨0, len, buf.take len, ESP_OK, len⟩] := by
  have h1 : len % SIZE_MOD = len := Nat.mod_eq_of_lt hlen
  simp [writeLoop, failOnce, hpos, h1]

/-- C2 (evaluation at the failing input). Handle present, mute off, factor `1.0`, the
four bytes of the samples `1, 2`.  Against a driver whose first call reports `ESP_FAIL`
with nothing accepted, the callback issues a second call for the same bytes and returns
`ESP_OK`; against a driver that fails on every call it issues one call per iteration and
never returns. -/
theorem output_cb_ignores_write_error :
    (∃ r, usb_uac_device_output_cb failOnce 2 ⟨true, true, false, F32.fin 1⟩ 0
        [1, 0, 2, 0] 4 = some r ∧ r.ret = some ESP_OK ∧
      r.calls.map (fun c => (c.offset, c.size, c.status, c.written))
        = [(0, 4, ESP_FAIL, 0), (0, 4, ESP_OK, 4)]) ∧
    (∀ fuel, ∃ r, usb_uac_device_output_cb failAlways fuel ⟨true, true, false, F32.fin 1⟩ ()
        [1, 0, 2, 0] 4 = some r ∧ r.ret = none ∧ r.calls.length = fuel ∧
      ∀ c ∈ r.calls, c.status = ESP_FAIL) := by
  have hsome := processLoop_isSome ⟨true, true, false, F32.fin 1⟩ (4 / 2) 0 [1, 0, 2, 0]
    (fun j _ _ => by
      rw [sampleOut_unity _ rfl rfl _ (readSample_range _ j).1 (readSample_range _ j).2]; rfl)
  obtain ⟨out, ho⟩ := Option.isSome_iff_exists.mp hsome
  constructor
  · obtain ⟨h1, h2⟩ := writeLoop_failOnce out 4 (by decide) (by decide)
    refine ⟨⟨_, out, _, _⟩, by simp only [usb_uac_device_output_cb, ho]; rfl, ?_, ?_⟩
    · simp only [h1]; rfl
    · simp only [h2]; rfl
  · intro fuel
    obtain ⟨h1, h2, h3⟩ := writeLoop_failAlways out 4 (by decide) fuel []
    refine ⟨⟨_, out, _, _⟩, by simp only [usb_uac_device_output_cb, ho]; rfl, ?_, ?_, ?_⟩
    · simp only [h1]; rfl
    · simpa using h2
    · intro c hc
      exact (h3 c hc (by simp)).1

/-! ## String descriptors -/

theorem desc_header (T x : Nat) (hT : T < 256) (hx : x < 256) :
    ((T <<< 8) ||| x) % 65536 = T * 256 + x := by
  have h : 2 ^ 8 * T + x = 2 ^ 8 * T ||| x := Nat.mul_add_lt_is_or (by omega) T
  rw [Nat.shiftLeft_eq, Nat.mul_comm T, ← h]
  omega

theorem copyChars_length (str : List Nat) :
    ∀ (n i : Nat) (d : List Nat), (copyChars str n i d).length = d.length := by
  intro n
  induction n with
  | zero => intro i d; rfl
  | succ n ih => intro i d; simp [copyChars, ih]

/-- Entry `j` of `_desc_str` after the copy loop. -/
theorem copyChars_getD (str : List Nat) :
    ∀ (n i : Nat) (d : List Nat) (j : Nat),
      (copyChars str n i d).getD j 0
        = if 1 + i ≤ j ∧ j < 1 + i + n ∧ j < d.length then str.getD (j - 1) 0 % 65536
          else d.getD j 0 := by
  intro n
  induction n with
  | zero =>
    intro i d j
    have : ¬ (1 + i ≤ j ∧ j < 1 + i + 0 ∧ j < d.length) := by omega
    rw [if_neg this]; rfl
  | succ n ih =>
    intro i d j
    simp only [copyChars]
    rw [ih, List.length_set]
    by_cases h1 : 1 + (i + 1) ≤ j ∧ j < 1 + (i + 1) + n ∧ j < d.length
    · have h2 : 1 + i ≤ j ∧ j < 1 + i + (n + 1) ∧ j < d.length := by omega
      rw [if_pos h1, if_pos h2]
    · rw [if_neg h1]
      by_cases h3 : j = 1 + i
      · subst h3
        by_cases h4 : 1 + i < d.length
        · have h2 : 1 + i ≤ 1 + i ∧ 1 + i < 1 + i + (n + 1) ∧ 1 + i < d.length := by omega
          rw [if_pos h2, List.getD_eq_getElem?_getD, List.getElem?_set_self h4]
          simp
        · have h2 : ¬ (1 + i ≤ 1 + i ∧ 1 + i < 1 + i + (n + 1) ∧ 1 + i < d.length) := by
            omega
          rw [if_neg h2]
          simp only [List.getD_eq_getElem?_getD]
          rw [List.getElem?_eq_none (by rw [List.length_set]; omega),
            List.getElem?_eq_none (by omega)]
      · have h2 : ¬ (1 + i ≤ j ∧ j < 1 + i + (n + 1) ∧ j < d.length) := by omega
        rw [if_neg h2]
        simp only [List.getD_eq_getElem?_getD]
        rw [List.getElem?_set_ne (Ne.symm h3)]

theorem string_desc_arr_chars (index : Nat) (h1 : 1 ≤ index) (h5 : index ≤ 5) :
    (string_desc_arr.getD index []).length ≤ 31 ∧
    ∀ j, (string_desc_arr.getD index []).getD j 0 < 65536 := by
  have hall : ∀ index, index < 6 → (string_desc_arr.getD index []).length ≤ 31 ∧
      ∀ j, j < 32 → (string_desc_arr.getD index []).getD j 0 < 65536 := by decide
  refine ⟨(hall index (by omega)).1, fun j => ?_⟩
  by_cases hj : j < 32
  · exact (hall index (by omega)).2 j hj
  · rw [List.getD_eq_getElem?_getD, List.getElem?_eq_none
      (le_trans (hall index (by omega)).1 (by omega))]
    decide

/-- C10 (evaluation). Over any contents `d` of the 32-entry `_desc_str` and any one-byte
descriptor type `T`: index 0 stores the single code unit `0x0409` at entry 1, leaves the
entries from 2 on as they were, and stores the header `T * 256 + 6`, a length byte of 6
where header plus one code unit make 4; an index from 1 to 5 stores the `n ≤ 31`
characters of its string at entries `1 .. n` and the header `T * 256 + (2 * n + 2)`;
an index of 6 or more returns `NULL`. -/
theorem string_cb_header (T : Nat) (hT : T < 256) (d : List Nat) (hd : d.length = 32) :
    (∃ r, tud_descriptor_string_cb T d 0 = some r ∧
      r.getD 0 0 / 256 = T ∧ r.getD 0 0 % 256 = 6 ∧ r.getD 1 0 = 0x0409 ∧
      ∀ j, 2 ≤ j → r.getD j 0 = d.getD j 0) ∧
    (∀ index, 1 ≤ index → index ≤ 5 →
      ∃ r, tud_descriptor_string_cb T d index = some r ∧
        r.getD 0 0 / 256 = T ∧
        r.getD 0 0 % 256 = 2 + 2 * (string_desc_arr.getD index []).length ∧
        (string_desc_arr.getD index []).length ≤ 31 ∧
        (∀ j, j < (string_desc_arr.getD index []).length →
          r.getD (1 + j) 0 = (string_desc_arr.getD index []).getD j 0) ∧
        ∀ j, (string_desc_arr.getD index []).length < j → r.getD j 0 = d.getD j 0) ∧
    (∀ index, 6 ≤ index → tud_descriptor_string_cb T d index = none) := by
  refine ⟨?_, ?_, ?_⟩
  · refine ⟨_, by simp only [tud_descriptor_string_cb, if_true]; rfl, ?_⟩
    have hh : ((T <<< 8) ||| (2 * 2 + 2)) % 65536 = T * 256 + 6 :=
      desc_header T 6 hT (by decide)
    have h0 : ((d.set 1 ((string_desc_arr.getD 0 []).getD 0 0
        + 256 * (string_desc_arr.getD 0 []).getD 1 0)).set 0
          (((T <<< 8) ||| (2 * 2 + 2)) % 65536)).getD 0 0 = T * 256 + 6 := by
      rw [List.getD_eq_getElem?_getD, List.getElem?_set_self (by simp; omega), hh]
      rfl
    refine ⟨by rw [h0]; omega, by rw [h0]; omega, ?_, ?_⟩
    · rw [List.getD_eq_getElem?_getD, List.getElem?_set_ne (by omega),
        List.getElem?_set_self (by omega)]
      rfl
    · intro j hj
      simp only [List.getD_eq_getElem?_getD]
      rw [List.getElem?_set_ne (by omega), List.getElem?_set_ne (by omega)]
  · intro index h1 h5
    obtain ⟨hlen, hch⟩ := string_desc_arr_chars index h1 h5
    have hidx : index ≠ 0 := by omega
    have hlt : index < string_desc_arr.length := by
      have : string_desc_arr.length = 6 := by decide
      omega
    have hc : (string_desc_arr.getD index []).length % 256
        = (string_desc_arr.getD index []).length := Nat.mod_eq_of_lt (by omega)
    have hcnt : (if (string_desc_arr.getD index []).length % 256 > 31 then 31
        else (string_desc_arr.getD index []).length % 256)
          = (string_desc_arr.getD index []).length := by
      rw [hc, if_neg (by omega)]
    have hcb : tud_descriptor_string_cb T d index = some
        ((copyChars (string_desc_arr.getD index []) (string_desc_arr.getD index []).length
          0 d).set 0
          (((T <<< 8) ||| (2 * (string_desc_arr.getD index []).length + 2)) % 65536)) := by
      simp only [tud_descriptor_string_cb, if_neg hidx, hlt, not_true_eq_false, if_false, hcnt]
    refine ⟨_, hcb, ?_⟩
    have hh := desc_header T (2 * (string_desc_arr.getD index []).length + 2) hT (by omega)
    rw [hh]
    have h0 : ((copyChars (string_desc_arr.getD index [])
        (string_desc_arr.getD index []).length 0 d).set 0
          (T * 256 + (2 * (string_desc_arr.getD index []).length + 2))).getD 0 0
        = T * 256 + (2 * (string_desc_arr.getD index []).length + 2) := by
      rw [List.getD_eq_getElem?_getD, List.getElem?_set_self
        (by rw [copyChars_length]; omega)]
      rfl
    refine ⟨by rw [h0]; omega, by rw [h0]; omega, hlen, ?_, ?_⟩
    · intro j hj
      rw [List.getD_eq_getElem?_getD, List.getElem?_set_ne (by omega),
        ← List.getD_eq_getElem?_getD, copyChars_getD, if_pos (by omega)]
      rw [Nat.mod_eq_of_lt (hch _)]
      congr 1
      omega
    · intro j hj
      rw [List.getD_eq_getElem?_getD, List.getElem?_set_ne (by omega),
        ← List.getD_eq_getElem?_getD, copyChars_getD, if_neg (by omega)]
  · intro index h6
    have hidx : index ≠ 0 := by omega
    have hlt : ¬ index < string_desc_arr.length := by
      have : string_desc_arr.length = 6 := by decide
      omega
    simp only [tud_descriptor_string_cb, if_neg hidx, hlt, not_false_eq_true, if_true]

/-- Witness for C10 (evaluation): descriptor type `3` over a zeroed `_desc_str`. -/
theorem string_cb_header_witness :
    tud_descriptor_string_cb 3 (List.replicate 32 0) 0
      = some (0x0306 :: 0x0409 :: List.replicate 30 0) ∧
    ∃ r, tud_descriptor_string_cb 3 (List.replicate 32 0) 0 = some r ∧
      r.getD 0 0 % 256 = 6 := by
  obtain ⟨⟨r, hr, _, h6, _⟩, _⟩ := string_cb_header 3 (by decide) (List.replicate 32 0) (by decide)
  exact ⟨by decide, r, hr, h6⟩

/-! ## The volume curve -/

theorem roundF32_natCast (n : ℕ) (h : n < 2 ^ 24) : roundF32 (n : ℚ) = n := by
  have := roundF32_intCast (n : ℤ) (by rw [abs_of_nonneg (by positivity)]; exact_mod_cast h)
  exact_mod_cast this

/-- Half-step error bound for a value below `2 ^ (e + 1)` in magnitude. -/
theorem roundF32_sub_le_of (q : ℚ) (e : ℤ) (h : |q| < (2 : ℚ) ^ (e + 1)) (he : -126 ≤ e) :
    |roundF32 q - q| ≤ (2 : ℚ) ^ (e - 24) :=
  le_trans (roundF32_sub_le q)
    (zpow_le_zpow_right₀ (by norm_num) (by have := binade_le_of q e h he; omega))

/-- The binary32 value `db` of line 92 in terms of the scaled level. -/
theorem volume_db_eq (v : Nat) (h1 : 1 ≤ v) (h2 : v ≤ 101) :
    volume_db v = roundF32 (-40 + roundF32 ((((v - 1 : ℕ) : ℚ) * 40) / 99)) := by
  have hk : (v - 1) % SIZE_MOD = v - 1 := Nat.mod_eq_of_lt (by unfold SIZE_MOD; omega)
  have ha : roundF32 (((v - 1 : ℕ) : ℚ)) = ((v - 1 : ℕ) : ℚ) :=
    roundF32_natCast _ (by omega)
  have h40 : f32sub 0 (-40) = 40 := by
    unfold f32sub
    have := roundF32_intCast 40 (by norm_num)
    norm_num at this ⊢
    exact this
  have hm : roundF32 (((v - 1 : ℕ) : ℚ) * 40) = ((v - 1 : ℕ) : ℚ) * 40 := by
    have := roundF32_natCast ((v - 1) * 40) (by omega)
    push_cast at this ⊢
    exact this
  unfold volume_db f32add f32div f32mul
  rw [hk, ha, h40, hm]

theorem volume_db_one : volume_db 1 = -40 := by
  rw [volume_db_eq 1 (by norm_num) (by norm_num)]
  have h := roundF32_intCast (-40) (by norm_num)
  simp only [Nat.sub_self, Nat.cast_zero, zero_mul, zero_div, roundF32_zero, add_zero]
  exact_mod_cast h

theorem volume_db_hundred : volume_db 100 = 0 := by
  rw [volume_db_eq 100 (by norm_num) (by norm_num)]
  have h := roundF32_intCast 40 (by norm_num)
  have e : (((100 - 1 : ℕ) : ℚ) * 40) / 99 = ((40 : ℤ) : ℚ) := by norm_num
  rw [e, h]
  norm_num [roundF32_zero]

/-- The exponent handed to `powf` at level 1 is exactly `-2`. -/
theorem volume_exp_one : f32div (volume_db 1) 20 = -2 := by
  rw [volume_db_one]
  unfold f32div
  have h := roundF32_intCast (-2) (by norm_num)
  have e : (-40 : ℚ) / 20 = ((-2 : ℤ) : ℚ) := by norm_num
  rw [e, h]
  norm_num

/-- The exponent handed to `powf` at level 100 is exactly `0`. -/
theorem volume_exp_hundred : f32div (volume_db 100) 20 = 0 := by
  rw [volume_db_hundred]
  unfold f32div
  simp [roundF32_zero]

/-- The binary32 exponent handed to `powf` is within `13 / (5 * 2 ^ 23)` of the exact
`dbExact level / 20`. -/
theorem volume_exp_near (v : Nat) (h1 : 1 ≤ v) (h2 : v ≤ 101) :
    |f32div (volume_db v) 20 - dbExact v / 20| ≤ 13 / (5 * 2 ^ 23) := by
  have hkq : ((v - 1 : ℕ) : ℚ) = (v : ℚ) - 1 := by
    rw [Nat.cast_sub h1]; norm_num
  have hv1 : (1 : ℚ) ≤ v := by exact_mod_cast h1
  have hv2 : (v : ℚ) ≤ 101 := by exact_mod_cast h2
  set x : ℚ := (((v - 1 : ℕ) : ℚ) * 40) / 99 with hx
  have hx0 : 0 ≤ x := by rw [hx, hkq]; apply div_nonneg _ (by norm_num); nlinarith
  have hx1 : x ≤ 4000 / 99 := by
    rw [hx, hkq, div_le_div_iff₀ (by norm_num) (by norm_num)]; nlinarith
  -- quotient by 99
  have ht : |roundF32 x - x| ≤ (2 : ℚ) ^ ((5 : ℤ) - 24) :=
    roundF32_sub_le_of x 5 (by rw [abs_of_nonneg hx0]; norm_num; linarith) (by norm_num)
  have ht' : |roundF32 x - x| ≤ 1 / 2 ^ 19 := by norm_num at ht ⊢; exact ht
  rw [abs_le] at ht'
  -- sum with -40
  have hd : |roundF32 (-40 + roundF32 x) - (-40 + roundF32 x)| ≤ (2 : ℚ) ^ ((5 : ℤ) - 24) :=
    roundF32_sub_le_of _ 5 (by
      rw [abs_lt]
      norm_num
      constructor <;> linarith [ht'.1, ht'.2]) (by norm_num)
  have hd' : |roundF32 (-40 + roundF32 x) - (-40 + roundF32 x)| ≤ 1 / 2 ^ 19 := by
    norm_num at hd ⊢; exact hd
  rw [abs_le] at hd'
  -- quotient by 20
  have hy : |roundF32 (roundF32 (-40 + roundF32 x) / 20) - roundF32 (-40 + roundF32 x) / 20|
      ≤ (2 : ℚ) ^ ((1 : ℤ) - 24) :=
    roundF32_sub_le_of _ 1 (by
      rw [abs_lt]
      norm_num
      constructor <;> linarith [ht'.1, ht'.2, hd'.1, hd'.2]) (by norm_num)
  have hy' : |roundF32 (roundF32 (-40 + roundF32 x) / 20) - roundF32 (-40 + roundF32 x) / 20|
      ≤ 1 / 2 ^ 23 := by
    norm_num at hy ⊢; exact hy
  rw [abs_le] at hy'
  rw [volume_db_eq v h1 h2]
  unfold f32div dbExact
  rw [← hkq, ← hx, abs_le]
  constructor <;> norm_num <;> linarith [ht'.1, ht'.2, hd'.1, hd'.2, hy'.1, hy'.2]

theorem log_ten_le : Real.log 10 ≤ 23105 / 10000 := by
  have h1 : (3 : ℝ) * Real.log 10 = Real.log (10 ^ 3) := by
    rw [Real.log_pow]; norm_num
  have h2 : Real.log ((10 : ℝ) ^ 3) ≤ Real.log (2 ^ 10) :=
    Real.log_le_log (by norm_num) (by norm_num)
  have h3 : Real.log ((2 : ℝ) ^ 10) = 10 * Real.log 2 := by
    rw [Real.log_pow]; norm_num
  have h4 := Real.log_two_lt_d9
  rw [h3] at h2
  linarith

theorem one_le_log_ten : 1 ≤ Real.log 10 := by
  rw [Real.le_log_iff_exp_le (by norm_num)]
  have := Real.exp_one_lt_d9
  linarith

theorem abs_exp_sub_one_le_div (x X : ℝ) (hx : |x| ≤ X) (hX : X < 1) :
    |Real.exp x - 1| ≤ X / (1 - X) := by
  have hX0 : 0 ≤ X := le_trans (abs_nonneg x) hx
  have hpos : 0 < 1 - X := by linarith
  rw [abs_le] at hx
  have hlow := Real.add_one_le_exp x
  have hXdiv : X ≤ X / (1 - X) := by
    rw [le_div_iff₀ hpos]; nlinarith
  rw [abs_le]
  constructor
  · linarith [hx.1]
  · by_cases h0 : 0 ≤ x
    · have h1 := Real.exp_bound_div_one_sub_of_interval h0 (by linarith [hx.2])
      have h2 : 1 / (1 - x) ≤ 1 / (1 - X) :=
        one_div_le_one_div_of_le hpos (by linarith [hx.2])
      have h3 : 1 / (1 - X) - 1 = X / (1 - X) := by field_simp
      linarith
    · have h1 : Real.exp x ≤ 1 := Real.exp_le_one_iff.mpr (le_of_lt (not_le.mp h0))
      have : 0 ≤ X / (1 - X) := div_nonneg hX0 (le_of_lt hpos)
      linarith

/-- A perturbation of the exponent by at most `13 / (5 * 2 ^ 23)` changes a power of ten by
a relative `72 / 10 ^ 8` at most. -/
theorem rpow_ten_near (d : ℝ) (hd : |d| ≤ 13 / (5 * 2 ^ 23)) :
    |(10 : ℝ) ^ d - 1| ≤ 72 / 10 ^ 8 := by
  rw [Real.rpow_def_of_pos (by norm_num)]
  have hl := log_ten_le
  have hl0 : 0 ≤ Real.log 10 := le_trans (by norm_num) one_le_log_ten
  have hx : |Real.log 10 * d| ≤ 23105 / 10000 * (13 / (5 * 2 ^ 23)) := by
    rw [abs_mul, abs_of_nonneg hl0]
    exact mul_le_mul hl hd (abs_nonneg d) (by norm_num)
  refine le_trans (abs_exp_sub_one_le_div _ _ hx (by norm_num)) ?_
  norm_num

theorem curve_pos (y : ℚ) : (0 : ℝ) < (10 : ℝ) ^ (y : ℝ) :=
  Real.rpow_pos_of_pos (by norm_num) _

theorem exists_rat_near (a : ℝ) (ha : 0 < a) : ∃ r : ℚ, |(r : ℝ) - a| ≤ a / 2 ^ 22 := by
  have hb : 0 < a / 2 ^ 22 := by positivity
  obtain ⟨r, h1, h2⟩ := exists_rat_btwn (show a < a + a / 2 ^ 22 by linarith)
  refine ⟨r, ?_⟩
  rw [abs_le]
  constructor <;> linarith

theorem refPowf_accurate : PowfAccurate refPowf := by
  refine ⟨by simp [refPowf], fun y _ => ?_⟩
  by_cases hy : y = 0
  · subst hy
    refine ⟨1, by simp [refPowf], ?_⟩
    simp
  · have hpos := curve_pos y
    have e10 : ((10 : ℚ) : ℝ) = 10 := by norm_num
    have hex : ∃ r : ℚ, |(r : ℝ) - ((10 : ℚ) : ℝ) ^ (y : ℝ)|
        ≤ ((10 : ℚ) : ℝ) ^ (y : ℝ) / 2 ^ 22 :=
      exists_rat_near _ (by rw [e10]; exact hpos)
    have hs := Classical.epsilon_spec hex
    refine ⟨Classical.epsilon (fun r : ℚ => |(r : ℝ) - ((10 : ℚ) : ℝ) ^ (y : ℝ)|
        ≤ ((10 : ℚ) : ℝ) ^ (y : ℝ) / 2 ^ 22), by simp only [refPowf, if_neg hy], ?_⟩
    have key : ∀ rr : ℚ, |(rr : ℝ) - ((10 : ℚ) : ℝ) ^ (y : ℝ)|
        ≤ ((10 : ℚ) : ℝ) ^ (y : ℝ) / 2 ^ 22 →
        |(rr : ℝ) - (10 : ℝ) ^ (y : ℝ)| ≤ (10 : ℝ) ^ (y : ℝ) / 2 ^ 22 := by
      intro rr h
      rw [e10] at h
      exact h
    exact key _ hs

/-- For an accurate `powf` and a level from 1 to 101 the stored factor is finite and
within a relative `10 ^ (-6)` of `10 ^ (dbExact level / 20)`. -/
theorem stored_factor_near (powf : ℚ → ℚ → F32) (hp : PowfAccurate powf) (st : Dev)
    (v : Nat) (h1 : 1 ≤ v) (h2 : v ≤ 101) :
    ∃ r : ℚ, (usb_uac_device_set_volume_cb powf st v).volume_factor = F32.fin r ∧
      |(r : ℝ) - (10 : ℝ) ^ ((dbExact v / 20 : ℚ) : ℝ)|
        ≤ (10 : ℝ) ^ ((dbExact v / 20 : ℚ) : ℝ) / 10 ^ 6 := by
  have hne : v ≠ 0 := by omega
  have hnear := volume_exp_near v h1 h2
  set y : ℚ := f32div (volume_db v) 20 with hy
  set z : ℚ := dbExact v / 20 with hz
  have hv1 : (1 : ℚ) ≤ v := by exact_mod_cast h1
  have hv2 : (v : ℚ) ≤ 101 := by exact_mod_cast h2
  have hzr : -2 ≤ z ∧ z ≤ 1 := by
    rw [hz]; unfold dbExact
    constructor
    · rw [le_div_iff₀ (by norm_num)]
      have : 0 ≤ ((v : ℚ) - 1) * 40 / 99 := div_nonneg (by nlinarith) (by norm_num)
      linarith
    · rw [div_le_iff₀ (by norm_num)]
      have : ((v : ℚ) - 1) * 40 / 99 ≤ 4000 / 99 := by
        rw [div_le_div_iff₀ (by norm_num) (by norm_num)]; nlinarith
      linarith
  have hyabs : |y| ≤ 37 := by
    rw [abs_le] at hnear ⊢
    constructor <;> norm_num at hnear ⊢ <;> linarith [hnear.1, hnear.2, hzr.1, hzr.2]
  obtain ⟨r, hr, hacc⟩ := hp.2 y hyabs
  refine ⟨r, by simp only [usb_uac_device_set_volume_cb, if_neg hne]; exact hr, ?_⟩
  have hsplit : (10 : ℝ) ^ (y : ℝ) = (10 : ℝ) ^ (z : ℝ) * (10 : ℝ) ^ ((y : ℝ) - (z : ℝ)) := by
    rw [← Real.rpow_add (by norm_num)]; congr 1; ring
  have hdr : |(y : ℝ) - (z : ℝ)| ≤ 13 / (5 * 2 ^ 23) := by
    have : ((|y - z| : ℚ) : ℝ) ≤ ((13 / (5 * 2 ^ 23) : ℚ) : ℝ) := by exact_mod_cast hnear
    rw [Rat.cast_abs] at this
    push_cast at this
    exact this
  have hq := rpow_ten_near _ hdr
  have hZ := curve_pos z
  rw [abs_le] at hacc hq ⊢
  rw [hsplit] at hacc
  set Z : ℝ := (10 : ℝ) ^ (z : ℝ)
  set Q : ℝ := (10 : ℝ) ^ ((y : ℝ) - (z : ℝ))
  have hQ1 : Q ≤ 1 + 72 / 10 ^ 8 := by linarith [hq.2]
  have hQ0 : 1 - 72 / 10 ^ 8 ≤ Q := by linarith [hq.1]
  have hZQ1 : Z * Q ≤ Z * (1 + 72 / 10 ^ 8) := mul_le_mul_of_nonneg_left hQ1 (le_of_lt hZ)
  have hZQ0 : Z * (1 - 72 / 10 ^ 8) ≤ Z * Q := mul_le_mul_of_nonneg_left hQ0 (le_of_lt hZ)
  constructor
  · have : (r : ℝ) ≥ Z * Q - Z * Q / 2 ^ 22 := by linarith [hacc.1]
    have h3 : Z * Q - Z * Q / 2 ^ 22 ≥ Z * (1 - 72 / 10 ^ 8) * (1 - 1 / 2 ^ 22) := by
      have : Z * Q - Z * Q / 2 ^ 22 = Z * Q * (1 - 1 / 2 ^ 22) := by ring
      rw [this]
      exact mul_le_mul_of_nonneg_right hZQ0 (by norm_num)
    have h4 : Z * (1 - 72 / 10 ^ 8) * (1 - 1 / 2 ^ 22) ≥ Z - Z / 10 ^ 6 := by
      have : Z * (1 - 72 / 10 ^ 8) * (1 - 1 / 2 ^ 22) - (Z - Z / 10 ^ 6)
          = Z * ((1 - 72 / 10 ^ 8) * (1 - 1 / 2 ^ 22) - (1 - 1 / 10 ^ 6)) := by ring
      have h5 : (0 : ℝ) ≤ (1 - 72 / 10 ^ 8) * (1 - 1 / 2 ^ 22) - (1 - 1 / 10 ^ 6) := by norm_num
      have := mul_nonneg (le_of_lt hZ) h5
      linarith
    linarith
  · have : (r : ℝ) ≤ Z * Q + Z * Q / 2 ^ 22 := by linarith [hacc.2]
    have h3 : Z * Q + Z * Q / 2 ^ 22 ≤ Z * (1 + 72 / 10 ^ 8) * (1 + 1 / 2 ^ 22) := by
      have : Z * Q + Z * Q / 2 ^ 22 = Z * Q * (1 + 1 / 2 ^ 22) := by ring
      rw [this]
      exact mul_le_mul_of_nonneg_right hZQ1 (by norm_num)
    have h4 : Z * (1 + 72 / 10 ^ 8) * (1 + 1 / 2 ^ 22) ≤ Z + Z / 10 ^ 6 := by
      have : (Z + Z / 10 ^ 6) - Z * (1 + 72 / 10 ^ 8) * (1 + 1 / 2 ^ 22)
          = Z * ((1 + 1 / 10 ^ 6) - (1 + 72 / 10 ^ 8) * (1 + 1 / 2 ^ 22)) := by ring
      have h5 : (0 : ℝ) ≤ (1 + 1 / 10 ^ 6) - (1 + 72 / 10 ^ 8) * (1 + 1 / 2 ^ 22) := by norm_num
      have := mul_nonneg (le_of_lt hZ) h5
      linarith
    linarith

theorem dbExact_cast (v : Nat) :
    ((dbExact v / 20 : ℚ) : ℝ) = (-40 + ((v : ℝ) - 1) * 40 / 99) / 20 := by
  unfold dbExact
  push_cast
  ring

theorem curve_one : (10 : ℝ) ^ ((dbExact 1 / 20 : ℚ) : ℝ) = 1 / 100 := by
  have e : ((dbExact 1 / 20 : ℚ) : ℝ) = ((-2 : ℤ) : ℝ) := by
    rw [dbExact_cast]; norm_num
  rw [e, Real.rpow_intCast]
  norm_num

/-- One level up multiplies the curve by at least `1 + 2 / 99`. -/
theorem curve_step (a b : Nat) (hab : a < b) :
    (10 : ℝ) ^ ((dbExact a / 20 : ℚ) : ℝ) * (1 + 2 / 99)
      ≤ (10 : ℝ) ^ ((dbExact b / 20 : ℚ) : ℝ) := by
  have hsplit : (10 : ℝ) ^ ((dbExact b / 20 : ℚ) : ℝ)
      = (10 : ℝ) ^ ((dbExact a / 20 : ℚ) : ℝ)
        * (10 : ℝ) ^ (((dbExact b / 20 : ℚ) : ℝ) - ((dbExact a / 20 : ℚ) : ℝ)) := by
    rw [← Real.rpow_add (by norm_num)]; congr 1; ring
  have hab' : (a : ℝ) + 1 ≤ b := by exact_mod_cast hab
  have hd : (2 : ℝ) / 99 ≤ ((dbExact b / 20 : ℚ) : ℝ) - ((dbExact a / 20 : ℚ) : ℝ) := by
    rw [dbExact_cast, dbExact_cast]
    linarith
  have hq : 1 + 2 / 99
      ≤ (10 : ℝ) ^ (((dbExact b / 20 : ℚ) : ℝ) - ((dbExact a / 20 : ℚ) : ℝ)) := by
    rw [Real.rpow_def_of_pos (by norm_num)]
    have h1 := Real.add_one_le_exp
      (Real.log 10 * (((dbExact b / 20 : ℚ) : ℝ) - ((dbExact a / 20 : ℚ) : ℝ)))
    have h2 := one_le_log_ten
    have h3 : ((dbExact b / 20 : ℚ) : ℝ) - ((dbExact a / 20 : ℚ) : ℝ)
        ≤ Real.log 10 * (((dbExact b / 20 : ℚ) : ℝ) - ((dbExact a / 20 : ℚ) : ℝ)) := by
      have hnn : (0 : ℝ) ≤ ((dbExact b / 20 : ℚ) : ℝ) - ((dbExact a / 20 : ℚ) : ℝ) := by
        linarith
      nlinarith
    linarith
  rw [hsplit]
  exact mul_le_mul_of_nonneg_left hq (le_of_lt (curve_pos _))

theorem curve_mono (a b : Nat) (hab : a ≤ b) :
    (10 : ℝ) ^ ((dbExact a / 20 : ℚ) : ℝ) ≤ (10 : ℝ) ^ ((dbExact b / 20 : ℚ) : ℝ) := by
  rcases Nat.eq_or_lt_of_le hab with h | h
  · subst h; exact le_refl _
  · have := curve_step a b h
    have hp := curve_pos (dbExact a / 20)
    nlinarith

/-- At level 0 the stored factor is the binary32 constant `0.001f`. -/
theorem stored_factor_zero (powf : ℚ → ℚ → F32) (st : Dev) :
    (usb_uac_device_set_volume_cb powf st 0).volume_factor
      = F32.fin (8589935 / 8589934592) := by
  simp only [usb_uac_device_set_volume_cb, if_true, roundF32_one_thousandth]

/-- At level 100 the stored factor is exactly `1.0`. -/
theorem stored_factor_hundred (powf : ℚ → ℚ → F32) (hp : PowfAccurate powf) (st : Dev) :
    (usb_uac_device_set_volume_cb powf st 100).volume_factor = F32.fin 1 := by
  simp only [usb_uac_device_set_volume_cb, volume_exp_hundred]
  exact hp.1

/-- Between two levels `1 ≤ a < b ≤ 101` the stored factor strictly grows. -/
theorem stored_factor_lt (powf : ℚ → ℚ → F32) (hp : PowfAccurate powf) (st : Dev)
    (a b : Nat) (ha : 1 ≤ a) (hab : a < b) (hb : b ≤ 101) (ra rb : ℚ)
    (hra : (usb_uac_device_set_volume_cb powf st a).volume_factor = F32.fin ra)
    (hrb : (usb_uac_device_set_volume_cb powf st b).volume_factor = F32.fin rb) :
    ra < rb := by
  obtain ⟨ra', ea, na⟩ := stored_factor_near powf hp st a ha (by omega)
  obtain ⟨rb', eb, nb⟩ := stored_factor_near powf hp st b (by omega) hb
  rw [hra] at ea
  rw [hrb] at eb
  cases ea
  cases eb
  have hs := curve_step a b hab
  have hp := curve_pos (dbExact a / 20)
  rw [abs_le] at na nb
  have : (ra : ℝ) < rb := by
    set A : ℝ := (10 : ℝ) ^ ((dbExact a / 20 : ℚ) : ℝ)
    set B : ℝ := (10 : ℝ) ^ ((dbExact b / 20 : ℚ) : ℝ)
    have h1 : (ra : ℝ) ≤ A + A / 10 ^ 6 := by linarith [na.2]
    have h2 : B - B / 10 ^ 6 ≤ rb := by linarith [nb.1]
    have h3 : A + A / 10 ^ 6 < B - B / 10 ^ 6 := by
      have : A * (1 + 2 / 99) * (1 - 1 / 10 ^ 6) ≤ B * (1 - 1 / 10 ^ 6) :=
        mul_le_mul_of_nonneg_right hs (by norm_num)
      nlinarith
    linarith
  exact_mod_cast this

/-- C7. For a `powf` accurate to two units in the last place, the volume mapping of
`usb_uac_device_set_volume_cb` hits its anchor points in binary32: level 0 stores the
constant `0.001f` (within `10 ^ (-10)` of 0.001); level 1 stores `powf(10, -2)`, within a
relative `2 ^ (-22)` of `0.01`; level 100 stores exactly `1.0`; and for every level from 1
to 100 the stored factor is within a relative `10 ^ (-6)` of `10 ^ (dB / 20)` with
`dB = -40 + (level - 1) * 40 / 99`. -/
theorem volume_curve_anchors (powf : ℚ → ℚ → F32) (hp : PowfAccurate powf) (st : Dev) :
    (usb_uac_device_set_volume_cb powf st 0).volume_factor = F32.fin (roundF32 (1 / 1000)) ∧
    roundF32 (1 / 1000) = 8589935 / 8589934592 ∧
    |roundF32 (1 / 1000) - 1 / 1000| ≤ 1 / 10 ^ 10 ∧
    (∃ r : ℚ, (usb_uac_device_set_volume_cb powf st 1).volume_factor = F32.fin r ∧
      |(r : ℝ) - 1 / 100| ≤ 1 / 100 / 2 ^ 22) ∧
    (usb_uac_device_set_volume_cb powf st 100).volume_factor = F32.fin 1 ∧
    ∀ level : Nat, 1 ≤ level → level ≤ 100 →
      ∃ r : ℚ, (usb_uac_device_set_volume_cb powf st level).volume_factor = F32.fin r ∧
        |(r : ℝ) - (10 : ℝ) ^ ((-40 + ((level : ℝ) - 1) * 40 / 99) / 20)|
          ≤ (10 : ℝ) ^ ((-40 + ((level : ℝ) - 1) * 40 / 99) / 20) / 10 ^ 6 := by
  refine ⟨by simp only [usb_uac_device_set_volume_cb, if_true], roundF32_one_thousandth, ?_,
    ?_, stored_factor_hundred powf hp st, ?_⟩
  · rw [roundF32_one_thousandth, abs_le]
    constructor <;> norm_num
  · obtain ⟨r, hr, hacc⟩ := hp.2 (-2) (by norm_num [abs_le])
    refine ⟨r, ?_, ?_⟩
    · simp only [usb_uac_device_set_volume_cb, volume_exp_one]
      exact hr
    · have e : (10 : ℝ) ^ (((-2 : ℚ)) : ℝ) = 1 / 100 := by
        have : (((-2 : ℚ)) : ℝ) = ((-2 : ℤ) : ℝ) := by norm_num
        rw [this, Real.rpow_intCast]
        norm_num
      rw [e] at hacc
      exact hacc
  · intro level h1 h2
    obtain ⟨r, hr, hn⟩ := stored_factor_near powf hp st level h1 (by omega)
    rw [dbExact_cast] at hn
    exact ⟨r, hr, hn⟩

/-- Witness for C7: the reference `powf`. -/
theorem volume_curve_anchors_witness :
    PowfAccurate refPowf ∧
    (usb_uac_device_set_volume_cb refPowf ⟨true, true, false, F32.fin 1⟩ 0).volume_factor
      = F32.fin (8589935 / 8589934592) ∧
    (usb_uac_device_set_volume_cb refPowf ⟨true, true, false, F32.fin 1⟩ 100).volume_factor
      = F32.fin 1 := by
  obtain ⟨h0, e, _, _, h100, _⟩ :=
    volume_curve_anchors refPowf refPowf_accurate ⟨true, true, false, F32.fin 1⟩
  exact ⟨refPowf_accurate, by rw [h0, e], h100⟩

/-- C8. For a `powf` accurate to two units in the last place, the factor stored by
`usb_uac_device_set_volume_cb` is finite and non-decreasing over the levels 0..100,
the step from the special case at level 0 to level 1 included (and strictly increasing
between distinct levels). -/
theorem volume_factor_monotone (powf : ℚ → ℚ → F32) (hp : PowfAccurate powf) (st : Dev)
    (a b : Nat) (hab : a ≤ b) (hb : b ≤ 100) :
    ∃ ra rb : ℚ, (usb_uac_device_set_volume_cb powf st a).volume_factor = F32.fin ra ∧
      (usb_uac_device_set_volume_cb powf st b).volume_factor = F32.fin rb ∧ ra ≤ rb ∧
      (a < b → ra < rb) := by
  rcases Nat.eq_zero_or_pos a with ha | ha
  · subst ha
    rcases Nat.eq_zero_or_pos b with hb0 | hb0
    · subst hb0
      exact ⟨_, _, stored_factor_zero powf st, stored_factor_zero powf st, le_refl _,
        fun h => absurd h (lt_irrefl _)⟩
    · obtain ⟨rb, eb, nb⟩ := stored_factor_near powf hp st b hb0 (by omega)
      have hm := curve_mono 1 b hb0
      rw [curve_one] at hm
      rw [abs_le] at nb
      have hlt : ((8589935 / 8589934592 : ℚ) : ℝ) < rb := by
        push_cast
        set B : ℝ := (10 : ℝ) ^ ((dbExact b / 20 : ℚ) : ℝ)
        have h2 : B - B / 10 ^ 6 ≤ rb := by linarith [nb.1]
        have h3 : (1 / 100 : ℝ) * (1 - 1 / 10 ^ 6) ≤ B * (1 - 1 / 10 ^ 6) :=
          mul_le_mul_of_nonneg_right hm (by norm_num)
        have h4 : (8589935 / 8589934592 : ℝ) < 1 / 100 * (1 - 1 / 10 ^ 6) := by norm_num
        linarith
      have hlt' : (8589935 / 8589934592 : ℚ) < rb := by exact_mod_cast hlt
      exact ⟨_, rb, stored_factor_zero powf st, eb, le_of_lt hlt', fun _ => hlt'⟩
  · obtain ⟨ra, ea, _⟩ := stored_factor_near powf hp st a ha (by omega)
    obtain ⟨rb, eb, _⟩ := stored_factor_near powf hp st b (by omega) (by omega)
    refine ⟨ra, rb, ea, eb, ?_, fun h =>
      stored_factor_lt powf hp st a b ha h (by omega) ra rb ea eb⟩
    rcases Nat.eq_or_lt_of_le hab with h | h
    · subst h
      rw [ea] at eb
      cases eb
      exact le_refl _
    · exact le_of_lt (stored_factor_lt powf hp st a b ha h (by omega) ra rb ea eb)

/-- Witness for C8: levels 0 and 100 under the reference `powf`. -/
theorem volume_factor_monotone_witness :
    PowfAccurate refPowf ∧
    ∃ ra rb : ℚ,
      (usb_uac_device_set_volume_cb refPowf ⟨true, true, false, F32.fin 1⟩ 0).volume_factor
        = F32.fin ra ∧
      (usb_uac_device_set_volume_cb refPowf ⟨true, true, false, F32.fin 1⟩ 100).volume_factor
        = F32.fin rb ∧ ra ≤ rb := by
  obtain ⟨ra, rb, h1, h2, h3, _⟩ := volume_factor_monotone refPowf refPowf_accurate
    ⟨true, true, false, F32.fin 1⟩ 0 100 (by decide) (by decide)
  exact ⟨refPowf_accurate, ra, rb, h1, h2, h3⟩

/-- For an accurate `powf` the factor stored at level 101 exceeds `1.0`. -/
theorem stored_factor_above_one (powf : ℚ → ℚ → F32) (hp : PowfAccurate powf) (st : Dev) :
    ∃ r : ℚ, (usb_uac_device_set_volume_cb powf st 101).volume_factor = F32.fin r ∧ 1 < r := by
  obtain ⟨r, er, _⟩ := stored_factor_near powf hp st 101 (by decide) (by decide)
  have := stored_factor_lt powf hp st 100 101 (by decide) (by decide) (by decide) 1 r
    (stored_factor_hundred powf hp st) er
  exact ⟨r, er, this⟩

/-- C9 (counterexample). Level 101, a value of the `uint32_t` parameter, is not clamped:
under the reference `powf` (accurate to two units in the last place) the stored factor is
above `1.0`, and it differs from what level 100 stores. -/
theorem volume_not_clamped_counterexample :
    PowfAccurate refPowf ∧ 101 < SIZE_MOD ∧
    ∃ r : ℚ,
      (usb_uac_device_set_volume_cb refPowf ⟨true, true, false, F32.fin 1⟩ 101).volume_factor
        = F32.fin r ∧ 1 < r ∧
      (usb_uac_device_set_volume_cb refPowf ⟨true, true, false, F32.fin 1⟩ 101).volume_factor
        ≠ (usb_uac_device_set_volume_cb refPowf ⟨true, true, false, F32.fin 1⟩
            100).volume_factor := by
  obtain ⟨r, er, hr⟩ := stored_factor_above_one refPowf refPowf_accurate
    ⟨true, true, false, F32.fin 1⟩
  refine ⟨refPowf_accurate, by decide, r, er, hr, ?_⟩
  rw [er, stored_factor_hundred refPowf refPowf_accurate]
  intro h
  cases h
  exact absurd hr (lt_irrefl _)

/-- C9 (amended). For a `powf` accurate to two units in the last place: after
`usb_uac_device_set_volume_cb` with any level from 0 to 100 the stored factor is finite
and lies in `[0.001, 1.0]` (and the other state is untouched), and
`usb_uac_device_set_mute_cb` leaves the factor unchanged. -/
theorem volume_factor_range (powf : ℚ → ℚ → F32) (hp : PowfAccurate powf) (st : Dev)
    (level : Nat) (h : level ≤ 100) :
    (∃ r : ℚ, (usb_uac_device_set_volume_cb powf st level).volume_factor = F32.fin r ∧
      1 / 1000 ≤ r ∧ r ≤ 1) ∧
    (usb_uac_device_set_volume_cb powf st level).is_muted = st.is_muted ∧
    (usb_uac_device_set_volume_cb powf st level).tx = st.tx ∧
    (usb_uac_device_set_volume_cb powf st level).rx = st.rx ∧
    ∀ mute : Nat, (usb_uac_device_set_mute_cb st mute).volume_factor = st.volume_factor := by
  refine ⟨?_, ?_, ?_, ?_, fun _ => rfl⟩
  · rcases Nat.eq_zero_or_pos level with h0 | h0
    · subst h0
      exact ⟨_, stored_factor_zero powf st, by norm_num, by norm_num⟩
    · obtain ⟨r, hr, hn⟩ := stored_factor_near powf hp st level h0 (by omega)
      refine ⟨r, hr, ?_, ?_⟩
      · have hm := curve_mono 1 level h0
        rw [curve_one] at hm
        rw [abs_le] at hn
        have hre : ((1 / 1000 : ℚ) : ℝ) ≤ r := by
          push_cast
          set B : ℝ := (10 : ℝ) ^ ((dbExact level / 20 : ℚ) : ℝ)
          have h3 : (1 / 100 : ℝ) * (1 - 1 / 10 ^ 6) ≤ B * (1 - 1 / 10 ^ 6) :=
            mul_le_mul_of_nonneg_right hm (by norm_num)
          have h4 : (1 / 1000 : ℝ) ≤ 1 / 100 * (1 - 1 / 10 ^ 6) := by norm_num
          linarith [hn.1]
        exact_mod_cast hre
      · rcases Nat.eq_or_lt_of_le h with h100 | h100
        · subst h100
          rw [stored_factor_hundred powf hp st] at hr
          cases hr
          exact le_refl _
        · exact le_of_lt (stored_factor_lt powf hp st level 100 h0 h100 (by decide) r 1 hr
            (stored_factor_hundred powf hp st))
  · unfold usb_uac_device_set_volume_cb; split_ifs <;> rfl
  · unfold usb_uac_device_set_volume_cb; split_ifs <;> rfl
  · unfold usb_uac_device_set_volume_cb; split_ifs <;> rfl

/-- Witness for C9 (amended): level 100 under the reference `powf`. -/
theorem volume_factor_range_witness :
    PowfAccurate refPowf ∧
    ∃ r : ℚ,
      (usb_uac_device_set_volume_cb refPowf ⟨true, true, false, F32.fin 1⟩ 100).volume_factor
        = F32.fin r ∧ 1 / 1000 ≤ r ∧ r ≤ 1 := by
  obtain ⟨h, _⟩ := volume_factor_range refPowf refPowf_accurate
    ⟨true, true, false, F32.fin 1⟩ 100 (le_refl _)
  exact ⟨refPowf_accurate, h⟩

end UsbUac
